import Mathlib

/-!
Verification of `cambly/scripts/format_transcript.py` (and the argument
validation shared with `cambly/scripts/correct_english.py`).

Python strings are embedded as lists of characters (`Str`).  Each Lean
definition mirrors one Python function of the source; the Python string
primitives used by the scripts (`str.strip`, `str.rstrip`, `str.lower`,
`str.split('\n')`, `str.replace`, `re.sub(r'\s+', ' ', ·)`) are embedded
as executable list functions.
-/

set_option linter.unusedVariables false

/-- Python strings, embedded as lists of characters. -/
abbrev Str := List Char

/-- The whitespace characters recognised by Python's `str.strip()` /
`\s` on the ASCII range (space, tab, newline, carriage return,
vertical tab, form feed). -/
def isPySpace (c : Char) : Bool :=
  c = ' ' || c = '\t' || c = '\n' || c = '\r' || c = '\x0b' || c = '\x0c'

/-- Drop leading whitespace (the left half of Python `str.strip()`). -/
def stripLeft (s : Str) : Str := s.dropWhile isPySpace

/-- Drop trailing characters satisfying `p` (Python `str.rstrip(chars)`). -/
def stripRightP (p : Char → Bool) (s : Str) : Str :=
  (s.reverse.dropWhile p).reverse

/-- Drop trailing whitespace (the right half of Python `str.strip()`). -/
def stripRight (s : Str) : Str := stripRightP isPySpace s

/-- Python `str.strip()`. -/
def pyStrip (s : Str) : Str := stripRight (stripLeft s)

/-- Python `str.split('\n')` (keeps empty segments; `[""]` on `""`). -/
def splitLines : Str → List Str
  | [] => [[]]
  | c :: rest =>
    if c = '\n' then [] :: splitLines rest
    else
      match splitLines rest with
      | [] => [[c]]
      | l :: ls => (c :: l) :: ls

/-- Python `re.sub(r'\s+', ' ', s)`: every maximal run of whitespace is
replaced by a single space. -/
def collapseWS : Str → Str
  | [] => []
  | c :: rest =>
    if isPySpace c then
      match rest with
      | [] => [' ']
      | d :: rest2 =>
        if isPySpace d then collapseWS (d :: rest2)
        else ' ' :: collapseWS (d :: rest2)
    else c :: collapseWS rest

/-- Python `str.lower()` (character-wise, ASCII range). -/
def lowerStr (s : Str) : Str := s.map Char.toLower

/-- The characters stripped by `rstrip('.,!?')` in
`is_minimal_interjection`. -/
def isTrailPunct (c : Char) : Bool :=
  c = '.' || c = ',' || c = '!' || c = '?'

/-- The fixed closed set `MINIMAL_INTERJECTIONS` of
`format_transcript.py`. -/
def MINIMAL_INTERJECTIONS : List Str :=
  ["mmm".toList, "mm".toList, "mhm".toList, "mm-hmm".toList, "mmhmm".toList,
   "uh-huh".toList, "uh huh".toList, "uhuh".toList,
   "yeah".toList, "yep".toList, "yup".toList,
   "okay".toList, "ok".toList, "right".toList,
   "oh".toList, "ah".toList, "i see".toList]

/-- `is_minimal_interjection`:
`text.lower().strip().rstrip('.,!?') in MINIMAL_INTERJECTIONS`. -/
def is_minimal_interjection (text : Str) : Bool :=
  decide (stripRightP isTrailPunct (pyStrip (lowerStr text)) ∈ MINIMAL_INTERJECTIONS)

/-- The `Utterance` dataclass: a speaker label and a text. -/
structure Utterance where
  speaker : Str
  text : Str
deriving DecidableEq, Repr

/-- Python `' '.join(parts)`. -/
def joinSpace (parts : List Str) : Str := List.intercalate [' '] parts

/-- The inner `while` loop of `merge_utterances`, scanning with current
speaker `S`: returns the texts absorbed into the current turn (in order)
and the unconsumed remainder of the input.  A different-speaker minimal
interjection whose successor returns to `S` is skipped: its text is not
collected. -/
def scanTurn (S : Str) : List Utterance → List Str × List Utterance
  | [] => ([], [])
  | u :: rest =>
    if u.speaker = S then
      let p := scanTurn S rest
      (u.text :: p.1, p.2)
    else if is_minimal_interjection u.text then
      match rest with
      | [] => ([], [u])
      | v :: rest2 =>
        if v.speaker = S then scanTurn S (v :: rest2)
        else ([], u :: v :: rest2)
    else ([], u :: rest)

/-- The unconsumed remainder of a scan never grows. -/
theorem scanTurn_snd_length (S : Str) (l : List Utterance) :
    (scanTurn S l).2.length ≤ l.length := by
  induction l with
  | nil => simp [scanTurn]
  | cons u rest ih =>
    cases rest with
    | nil =>
      by_cases hs : u.speaker = S
      · simp [scanTurn, hs]
      · by_cases hi : is_minimal_interjection u.text
        · simp [scanTurn, hs, hi]
        · simp [scanTurn, hs, hi]
    | cons v rest2 =>
      by_cases hs : u.speaker = S
      · simpa [scanTurn, hs] using Nat.le_succ_of_le ih
      · by_cases hi : is_minimal_interjection u.text
        · by_cases hv : v.speaker = S
          · simpa [scanTurn, hs, hi, hv] using Nat.le_succ_of_le ih
          · simp [scanTurn, hs, hi, hv]
        · simp [scanTurn, hs, hi]

/-- `merge_utterances`: scan left to right; each output turn is opened at
the first unconsumed utterance and its text is the space-join of the
opener's text with the texts collected by `scanTurn`. -/
def merge_utterances : List Utterance → List Utterance
  | [] => []
  | u :: rest =>
    ⟨u.speaker, joinSpace (u.text :: (scanTurn u.speaker rest).1)⟩ ::
      merge_utterances (scanTurn u.speaker rest).2
  termination_by l => l.length
  decreasing_by
    simp only [List.length_cons]
    exact Nat.lt_succ_of_le (scanTurn_snd_length _ _)

/-- `clean_text`: collapse whitespace runs, strip both ends, then
`rstrip(',')`. -/
def clean_text (text : Str) : Str :=
  stripRightP (fun c => c = ',') (pyStrip (collapseWS text))

/-- The capitalisation step of `add_punctuation`:
`text[0].upper() + text[1:] if len(text) > 1 else text.upper()`. -/
def capFirst (text : Str) : Str :=
  if 1 < text.length then
    match text with
    | [] => []
    | c :: rest => Char.toUpper c :: rest
  else text.map Char.toUpper

/-- `text and text[-1] in '.!?'`: the text is nonempty and already ends
in terminal punctuation. -/
def endsPunct (text : Str) : Bool :=
  match text.getLast? with
  | some c => c = '.' || c = '!' || c = '?'
  | none => false

/-- `add_punctuation`: clean, capitalise the first character, then append
a period unless the text already ends in `.`, `!` or `?`. -/
def add_punctuation (text : Str) : Str :=
  let t := clean_text text
  if t = [] then t
  else
    let t2 := capFirst t
    if t2 ≠ [] ∧ ¬ endsPunct t2 then t2 ++ ['.'] else t2

/-- The speaker-label marker `のアバター`. -/
def marker : Str := "のアバター".toList

/-- Truthiness of the parser's `current_speaker` variable (Python:
`None` and the empty string are falsy). -/
def truthy : Option Str → Bool
  | none => false
  | some s => !s.isEmpty

/-- Python `line.replace('のアバター', '')`: remove every (left-to-right,
non-overlapping) occurrence of the marker. -/
def replaceMarker : Str → Str
  | [] => []
  | c :: rest =>
    if marker.isPrefixOf (c :: rest) then
      replaceMarker ((c :: rest).drop marker.length)
    else c :: replaceMarker rest
  termination_by l => l.length
  decreasing_by
    all_goals
      have h5 : marker.length = 5 := by decide
      simp only [List.length_cons, List.length_drop, h5]
      omega

/-- Closing an utterance in `parse_transcript`: emitted only when a
truthy speaker is current, the collected parts are nonempty, and their
space-join strips to a nonempty text. -/
def flushUtt (cs : Option Str) (parts : List Str) : List Utterance :=
  if truthy cs ∧ parts ≠ [] then
    let text := pyStrip (joinSpace parts)
    if text ≠ [] then [⟨cs.getD [], text⟩] else []
  else []

/-- The line loop of `parse_transcript`: strip each line, skip blanks,
start a new speaker at a label line (flushing the previous utterance),
and append content lines while a truthy speaker is current. -/
def parseLoop : List Str → Option Str → List Str → List Utterance
  | [], cs, parts => flushUtt cs parts
  | ln :: rest, cs, parts =>
    let l := pyStrip ln
    if l = [] then parseLoop rest cs parts
    else if marker.isSuffixOf l then
      flushUtt cs parts ++ parseLoop rest (some (replaceMarker l)) []
    else if truthy cs then parseLoop rest cs (parts ++ [l])
    else parseLoop rest cs parts

/-- `parse_transcript`: strip the raw text, split into lines, scan. -/
def parse_transcript (raw : Str) : List Utterance :=
  parseLoop (splitLines (pyStrip raw)) none []

/-- Python `str.isdigit()` restricted to its ASCII behaviour (the full
Python predicate also accepts non-ASCII Unicode digit characters). -/
def pyIsdigit (s : Str) : Bool :=
  !s.isEmpty && s.all Char.isDigit

/-- The argument validation `len(date_str) == 8 and date_str.isdigit()`
shared verbatim by `format_transcript.py` and `correct_english.py`. -/
def validDateArg (s : Str) : Bool :=
  s.length == 8 && pyIsdigit s

/-- Outcome of the front of `main` in either script, before any file is
touched. -/
inductive MainStart where
  | usageError
  | validationError
  | proceedToFiles (date : Str)
deriving DecidableEq, Repr

/-- The front of `main` in `format_transcript.py`: argument-count check,
then date validation; only then are file paths used. -/
def format_main_start (argv : List Str) : MainStart :=
  if argv.length ≠ 2 then .usageError
  else
    let date := argv.getD 1 []
    if ¬ validDateArg date then .validationError
    else .proceedToFiles date

/-- The front of `main` in `correct_english.py` (identical checks). -/
def correct_main_start (argv : List Str) : MainStart :=
  if argv.length ≠ 2 then .usageError
  else
    let date := argv.getD 1 []
    if ¬ validDateArg date then .validationError
    else .proceedToFiles date

/-- The utterances at which `merge_utterances` opens its successive
turns (the value of `utterances[i]` at the top of each outer-loop
iteration). -/
def turnStarts : List Utterance → List Utterance
  | [] => []
  | u :: rest => u :: turnStarts (scanTurn u.speaker rest).2
  termination_by l => l.length
  decreasing_by
    simp only [List.length_cons]
    exact Nat.lt_succ_of_le (scanTurn_snd_length _ _)

/-- Modelled from the spec: rendering one `(speaker, text)` block in the
label convention — a label line (the speaker immediately followed by the
marker) and then the block's text lines. -/
def renderBlock (p : Str × Str) : Str :=
  p.1 ++ marker ++ '\n' :: p.2

/-- Modelled from the spec: rendering a sequence of `(speaker, text)`
blocks in the label convention, blocks separated by a line break. -/
def renderBlocks : List (Str × Str) → Str
  | [] => []
  | [p] => renderBlock p
  | p :: q :: ps => renderBlock p ++ '\n' :: renderBlocks (q :: ps)

/-- The text the parser reconstructs for one block: its lines stripped,
blank lines dropped, the rest joined with single spaces. -/
def normText (t : Str) : Str :=
  joinSpace (((splitLines t).map pyStrip).filter (fun l => l ≠ []))

/-- The lines of a rendered block list: one label line per block,
followed by the block text's own lines. -/
def linesOf (ps : List (Str × Str)) : List Str :=
  ps.flatMap (fun p => (p.1 ++ marker) :: splitLines p.2)

/-- A speaker that the label convention can round-trip: nonempty, not
starting with whitespace, on one line, and containing no occurrence of
the marker. -/
def goodSpeaker (s : Str) : Prop :=
  s ≠ [] ∧ (∀ c, s.head? = some c → isPySpace c = false) ∧
    '\n' ∉ s ∧ ¬ marker <:+: s

/-- A text that the label convention can round-trip: it contains at
least one non-whitespace character, and none of its lines strips to a
string ending in the marker. -/
def goodText (t : Str) : Prop :=
  (∃ c ∈ t, isPySpace c = false) ∧
    ∀ ln ∈ splitLines t, ¬ marker <:+ pyStrip ln

instance decGoodSpeaker (s : Str) : Decidable (goodSpeaker s) :=
  decidable_of_iff
    (s ≠ [] ∧ s.head?.all (fun c => !isPySpace c) = true ∧
      '\n' ∉ s ∧ ¬ marker <:+: s)
    (by
      unfold goodSpeaker
      constructor
      · rintro ⟨h1, h2, h3, h4⟩
        refine ⟨h1, ?_, h3, h4⟩
        intro c hc
        rw [hc] at h2
        simpa using h2
      · rintro ⟨h1, h2, h3, h4⟩
        refine ⟨h1, ?_, h3, h4⟩
        cases hx : s.head? with
        | none => rfl
        | some c => simpa using h2 c hx)

instance decGoodText (t : Str) : Decidable (goodText t) :=
  decidable_of_iff
    ((∃ c ∈ t, isPySpace c = false) ∧
      ∀ ln ∈ splitLines t, ¬ marker <:+ pyStrip ln)
    Iff.rfl

/-- The maximal whitespace-free runs of a string (proof machinery for
relating the parser's line joining to whitespace collapsing). -/
def wordsOf : Str → List Str
  | [] => []
  | c :: rest =>
    if isPySpace c then wordsOf (rest.dropWhile isPySpace)
    else (c :: rest.takeWhile (fun d => !isPySpace d)) ::
      wordsOf (rest.dropWhile (fun d => !isPySpace d))
  termination_by s => s.length
  decreasing_by
    all_goals
      simp only [List.length_cons]
      exact Nat.lt_succ_of_le (List.Sublist.length_le (List.dropWhile_sublist _))

/-! ### Equation lemmas for the well-founded definitions -/

theorem stripRightP_eq_rdropWhile (p : Char → Bool) (s : Str) :
    stripRightP p s = List.rdropWhile p s := rfl

theorem merge_utterances_nil : merge_utterances [] = [] := by
  rw [merge_utterances]

theorem merge_utterances_cons (u : Utterance) (rest : List Utterance) :
    merge_utterances (u :: rest) =
      ⟨u.speaker, joinSpace (u.text :: (scanTurn u.speaker rest).1)⟩ ::
        merge_utterances (scanTurn u.speaker rest).2 := by
  rw [merge_utterances]

theorem turnStarts_nil : turnStarts [] = [] := by
  rw [turnStarts]

theorem turnStarts_cons (u : Utterance) (rest : List Utterance) :
    turnStarts (u :: rest) = u :: turnStarts (scanTurn u.speaker rest).2 := by
  rw [turnStarts]

/-! ### Case analysis of the inner merge scan -/

theorem scanTurn_same {S : Str} {u : Utterance} (rest : List Utterance)
    (hs : u.speaker = S) :
    scanTurn S (u :: rest) = (u.text :: (scanTurn S rest).1, (scanTurn S rest).2) := by
  cases rest <;> simp [scanTurn, hs]

theorem scanTurn_notInterj {S : Str} {u : Utterance} (rest : List Utterance)
    (hs : ¬ u.speaker = S) (hi : ¬ is_minimal_interjection u.text = true) :
    scanTurn S (u :: rest) = ([], u :: rest) := by
  cases rest <;> simp [scanTurn, hs, hi]

theorem scanTurn_interjLast {S : Str} {u : Utterance}
    (hs : ¬ u.speaker = S) (hi : is_minimal_interjection u.text = true) :
    scanTurn S [u] = ([], [u]) := by
  simp [scanTurn, hs, hi]

theorem scanTurn_skip {S : Str} {u v : Utterance} (rest2 : List Utterance)
    (hs : ¬ u.speaker = S) (hi : is_minimal_interjection u.text = true)
    (hv : v.speaker = S) :
    scanTurn S (u :: v :: rest2) = scanTurn S (v :: rest2) := by
  conv_lhs => rw [scanTurn]
  simp [hs, hi, hv]

theorem scanTurn_interjBreak {S : Str} {u v : Utterance} (rest2 : List Utterance)
    (hs : ¬ u.speaker = S) (hi : is_minimal_interjection u.text = true)
    (hv : ¬ v.speaker = S) :
    scanTurn S (u :: v :: rest2) = ([], u :: v :: rest2) := by
  simp [scanTurn, hs, hi, hv]

/-- The unconsumed remainder of the scan is a suffix of the input. -/
theorem scanTurn_snd_suffix (S : Str) (l : List Utterance) :
    (scanTurn S l).2 <:+ l := by
  induction l with
  | nil => simp [scanTurn]
  | cons u rest ih =>
    by_cases hs : u.speaker = S
    · rw [scanTurn_same rest hs]
      exact ih.trans (List.suffix_cons u rest)
    · by_cases hi : is_minimal_interjection u.text = true
      · cases rest with
        | nil =>
          rw [scanTurn_interjLast hs hi]
        | cons v rest2 =>
          by_cases hv : v.speaker = S
          · rw [scanTurn_skip rest2 hs hi hv]
            exact ih.trans (List.suffix_cons u _)
          · rw [scanTurn_interjBreak rest2 hs hi hv]
      · rw [scanTurn_notInterj rest hs hi]

/-- The first unconsumed utterance after a scan never belongs to the
scanning speaker. -/
theorem scanTurn_snd_head_speaker (S : Str) (l : List Utterance) :
    ∀ v, (scanTurn S l).2.head? = some v → ¬ v.speaker = S := by
  induction l with
  | nil => intro v hv; simp [scanTurn] at hv
  | cons u rest ih =>
    intro v hv
    by_cases hs : u.speaker = S
    · rw [scanTurn_same rest hs] at hv
      exact ih v hv
    · by_cases hi : is_minimal_interjection u.text = true
      · cases rest with
        | nil =>
          rw [scanTurn_interjLast hs hi] at hv
          simp at hv
          subst hv
          exact hs
        | cons w rest2 =>
          by_cases hw : w.speaker = S
          · rw [scanTurn_skip rest2 hs hi hw] at hv
            exact ih v hv
          · rw [scanTurn_interjBreak rest2 hs hi hw] at hv
            simp at hv
            subst hv
            exact hs
      · rw [scanTurn_notInterj rest hs hi] at hv
        simp at hv
        subst hv
        exact hs

/-! ### Turn ordering and speaker attribution -/

/-- Fuel-indexed form of the adjacent-speaker invariant. -/
theorem merge_chain_aux :
    ∀ (n : Nat) (l : List Utterance), l.length ≤ n →
      List.Chain' (fun a b : Utterance => a.speaker ≠ b.speaker)
        (merge_utterances l) := by
  intro n
  induction n with
  | zero =>
    intro l h
    have hl : l = [] := List.length_eq_zero.mp (Nat.le_zero.mp h)
    subst hl
    simp [merge_utterances_nil]
  | succ n ih =>
    intro l h
    cases l with
    | nil => simp [merge_utterances_nil]
    | cons u rest =>
      rw [merge_utterances_cons, List.chain'_cons']
      refine ⟨?_, ?_⟩
      · intro y hy
        cases hrem : (scanTurn u.speaker rest).2 with
        | nil => rw [hrem, merge_utterances_nil] at hy; simp at hy
        | cons v rem2 =>
          rw [hrem, merge_utterances_cons] at hy
          simp only [List.head?_cons, Option.mem_def, Option.some.injEq] at hy
          have hv : ¬ v.speaker = u.speaker := by
            apply scanTurn_snd_head_speaker u.speaker rest
            rw [hrem]
            rfl
          subst hy
          simp only [ne_eq]
          intro hcontra
          exact hv hcontra.symm
      · apply ih
        have h1 : (scanTurn u.speaker rest).2.length ≤ rest.length :=
          scanTurn_snd_length _ _
        simp only [List.length_cons] at h
        omega

/-- C10: any two adjacent merged turns have distinct speakers. -/
theorem merge_adjacent_turns_distinct (l : List Utterance) :
    List.Chain' (fun a b : Utterance => a.speaker ≠ b.speaker)
      (merge_utterances l) :=
  merge_chain_aux l.length l le_rfl

/-- Fuel-indexed form: merged turns carry their openers' speakers. -/
theorem merge_speakers_aux :
    ∀ (n : Nat) (l : List Utterance), l.length ≤ n →
      (merge_utterances l).map Utterance.speaker =
        (turnStarts l).map Utterance.speaker := by
  intro n
  induction n with
  | zero =>
    intro l h
    have hl : l = [] := List.length_eq_zero.mp (Nat.le_zero.mp h)
    subst hl
    simp [merge_utterances_nil, turnStarts_nil]
  | succ n ih =>
    intro l h
    cases l with
    | nil => simp [merge_utterances_nil, turnStarts_nil]
    | cons u rest =>
      rw [merge_utterances_cons, turnStarts_cons]
      simp only [List.map_cons, List.cons.injEq]
      refine ⟨by trivial, ?_⟩
      apply ih
      have h1 : (scanTurn u.speaker rest).2.length ≤ rest.length :=
        scanTurn_snd_length _ _
      simp only [List.length_cons] at h
      omega

/-- Fuel-indexed form: the turn openers are a sublist of the input. -/
theorem turnStarts_sublist_aux :
    ∀ (n : Nat) (l : List Utterance), l.length ≤ n →
      (turnStarts l).Sublist l := by
  intro n
  induction n with
  | zero =>
    intro l h
    have hl : l = [] := List.length_eq_zero.mp (Nat.le_zero.mp h)
    subst hl
    simp [turnStarts_nil]
  | succ n ih =>
    intro l h
    cases l with
    | nil => simp [turnStarts_nil]
    | cons u rest =>
      rw [turnStarts_cons]
      apply List.Sublist.cons₂
      have hsub : (turnStarts (scanTurn u.speaker rest).2).Sublist
          (scanTurn u.speaker rest).2 := by
        apply ih
        have h1 : (scanTurn u.speaker rest).2.length ≤ rest.length :=
          scanTurn_snd_length _ _
        simp only [List.length_cons] at h
        omega
      exact hsub.trans (scanTurn_snd_suffix u.speaker rest).sublist

/-- C5: each merged turn carries the speaker of the utterance it was
opened at, and the turns appear in the order of those opening
utterances (the openers form a sublist of the input). -/
theorem merge_turn_speakers_and_order (l : List Utterance) :
    (merge_utterances l).map Utterance.speaker =
      (turnStarts l).map Utterance.speaker ∧
    (turnStarts l).Sublist l :=
  ⟨merge_speakers_aux l.length l le_rfl, turnStarts_sublist_aux l.length l le_rfl⟩

/-! ### Argument validation -/

/-- C9: in both scripts, for a correctly sized argument vector the front
of `main` flags a validation error exactly when the argument is not a
string of exactly eight digit characters; in particular the 7-digit
string `2025122` is rejected before any file path is formed. -/
theorem arg_validation_exact (prog s : Str) :
    (format_main_start [prog, s] = MainStart.validationError ↔
      ¬ (s.length = 8 ∧ ∀ c ∈ s, c.isDigit = true)) ∧
    (correct_main_start [prog, s] = MainStart.validationError ↔
      ¬ (s.length = 8 ∧ ∀ c ∈ s, c.isDigit = true)) ∧
    format_main_start [prog, "2025122".toList] = MainStart.validationError ∧
    correct_main_start [prog, "2025122".toList] = MainStart.validationError := by
  have hfc : correct_main_start = format_main_start := rfl
  have hval : ∀ t : Str, validDateArg t = true ↔
      (t.length = 8 ∧ ∀ c ∈ t, c.isDigit = true) := by
    intro t
    constructor
    · intro h
      simp only [validDateArg, pyIsdigit, Bool.and_eq_true, beq_iff_eq,
        Bool.not_eq_true', List.all_eq_true, List.isEmpty_eq_false] at h
      exact ⟨h.1, h.2.2⟩
    · intro h
      have hne : t ≠ [] := by
        intro hnil
        rw [hnil] at h
        simp at h
      simp only [validDateArg, pyIsdigit, Bool.and_eq_true, beq_iff_eq,
        Bool.not_eq_true', List.all_eq_true, List.isEmpty_eq_false]
      exact ⟨h.1, hne, h.2⟩
  have hmain : ∀ t : Str,
      format_main_start [prog, t] = MainStart.validationError ↔
        ¬ validDateArg t = true := by
    intro t
    simp only [format_main_start, List.length_cons, List.length_nil]
    rw [if_neg (by omega)]
    have hg : [prog, t].getD 1 [] = t := rfl
    rw [hg]
    by_cases hv : validDateArg t = true
    · rw [if_neg (by simp [hv])]
      simp [hv]
    · rw [if_pos hv]
      simp [hv]
  refine ⟨?_, ?_, ?_, ?_⟩
  · rw [hmain s]
    constructor
    · intro h hcl
      exact h ((hval s).mpr hcl)
    · intro h hv
      exact h ((hval s).mp hv)
  · rw [hfc, hmain s]
    constructor
    · intro h hcl
      exact h ((hval s).mpr hcl)
    · intro h hv
      exact h ((hval s).mp hv)
  · exact (hmain ("2025122".toList)).mpr (by decide)
  · rw [hfc]
    exact (hmain ("2025122".toList)).mpr (by decide)

/-- Witness for C9 at the concrete 7-digit argument from the spec. -/
theorem arg_validation_witness :
    format_main_start [[], "2025122".toList] = MainStart.validationError :=
  (arg_validation_exact [] ("2025122".toList)).2.2.1

/-! ### Merge evaluation and text contents -/

theorem joinSpace_singleton (t : Str) : joinSpace [t] = t := by
  simp [joinSpace, List.intercalate]

/-- Evaluating one whole merge pass when the scan consumes all input. -/
theorem merge_eval (u : Utterance) (rest : List Utterance) (ts : List Str)
    (hscan : scanTurn u.speaker rest = (ts, [])) :
    merge_utterances (u :: rest) = [⟨u.speaker, joinSpace (u.text :: ts)⟩] := by
  rw [merge_utterances_cons, hscan]
  simp [merge_utterances_nil]

/-- C2 (counterexample): an alternating-speaker sequence containing a
minimal interjection is not a fixed point of `merge_utterances`. -/
theorem merge_idempotent_counterexample :
    List.Chain' (fun a b : Utterance => a.speaker ≠ b.speaker)
      [⟨"A".toList, "hello".toList⟩, ⟨"B".toList, "yeah".toList⟩,
       ⟨"A".toList, "bye".toList⟩] ∧
    merge_utterances
        [⟨"A".toList, "hello".toList⟩, ⟨"B".toList, "yeah".toList⟩,
         ⟨"A".toList, "bye".toList⟩] ≠
      [⟨"A".toList, "hello".toList⟩, ⟨"B".toList, "yeah".toList⟩,
       ⟨"A".toList, "bye".toList⟩] := by
  constructor
  · exact List.chain'_cons.mpr ⟨by decide, List.chain'_pair.mpr (by decide)⟩
  · rw [merge_eval ⟨"A".toList, "hello".toList⟩
      [⟨"B".toList, "yeah".toList⟩, ⟨"A".toList, "bye".toList⟩]
      ["bye".toList] (by decide)]
    decide

/-- C2 (amended): on sequences whose adjacent elements have distinct
speakers and none of whose texts is a minimal interjection, the merge
returns its input unchanged. -/
theorem merge_fixed_of_alternating_no_interjection (l : List Utterance)
    (halt : List.Chain' (fun a b : Utterance => a.speaker ≠ b.speaker) l)
    (hni : ∀ u ∈ l, is_minimal_interjection u.text = false) :
    merge_utterances l = l := by
  induction l with
  | nil => exact merge_utterances_nil
  | cons u rest ih =>
    have hscan : scanTurn u.speaker rest = ([], rest) := by
      cases rest with
      | nil => rfl
      | cons v rest2 =>
        have hsv : ¬ v.speaker = u.speaker := by
          have := (List.chain'_cons'.mp halt).1 v (by simp)
          intro hcontra
          exact this hcontra.symm
        have hvi : ¬ is_minimal_interjection v.text = true := by
          simp [hni v (by simp)]
        exact scanTurn_notInterj rest2 hsv hvi
    rw [merge_utterances_cons, hscan]
    simp only [joinSpace_singleton]
    have htail : merge_utterances rest = rest :=
      ih (List.chain'_cons'.mp halt).2 (fun v hv => hni v (List.mem_cons_of_mem u hv))
    rw [htail]

/-- C2 (witness): a concrete alternating interjection-free sequence kept
unchanged by the merge. -/
theorem merge_fixed_witness :
    List.Chain' (fun a b : Utterance => a.speaker ≠ b.speaker)
      [⟨"A".toList, "hello there".toList⟩, ⟨"B".toList, "nice day".toList⟩] ∧
    merge_utterances
        [⟨"A".toList, "hello there".toList⟩, ⟨"B".toList, "nice day".toList⟩] =
      [⟨"A".toList, "hello there".toList⟩, ⟨"B".toList, "nice day".toList⟩] :=
  ⟨List.chain'_pair.mpr (by decide),
   merge_fixed_of_alternating_no_interjection _
     (List.chain'_pair.mpr (by decide)) (by decide)⟩

/-- The texts collected by the scan are exactly the texts of the
consumed utterances that belong to the scanning speaker, in order. -/
theorem scanTurn_fst_texts (S : Str) (l : List Utterance) :
    (scanTurn S l).1 =
      ((l.take (l.length - (scanTurn S l).2.length)).filter
        (fun u => decide (u.speaker = S))).map Utterance.text := by
  induction l with
  | nil => simp [scanTurn]
  | cons u rest ih =>
    by_cases hs : u.speaker = S
    · rw [scanTurn_same rest hs]
      have hlen := scanTurn_snd_length S rest
      have hk : (u :: rest).length - (scanTurn S rest).2.length =
          (rest.length - (scanTurn S rest).2.length) + 1 := by
        simp only [List.length_cons]
        omega
      rw [hk]
      simp only [List.take_succ_cons, List.filter_cons]
      rw [if_pos (by simp [hs])]
      simp only [List.map_cons, List.cons.injEq]
      exact ⟨by trivial, ih⟩
    · by_cases hi : is_minimal_interjection u.text = true
      · cases rest with
        | nil =>
          rw [scanTurn_interjLast hs hi]
          simp
        | cons v rest2 =>
          by_cases hv : v.speaker = S
          · rw [scanTurn_skip rest2 hs hi hv]
            have hlen := scanTurn_snd_length S (v :: rest2)
            have hk : (u :: v :: rest2).length -
                (scanTurn S (v :: rest2)).2.length =
                ((v :: rest2).length - (scanTurn S (v :: rest2)).2.length) + 1 := by
              simp only [List.length_cons] at hlen ⊢
              omega
            rw [hk]
            simp only [List.take_succ_cons, List.filter_cons]
            rw [if_neg (by simp [hs])]
            exact ih
          · rw [scanTurn_interjBreak rest2 hs hi hv]
            simp
      · rw [scanTurn_notInterj rest hs hi]
        simp

/-- C1 (amended): each merged turn's text is the space-joined
concatenation of the texts of the same-speaker utterances consumed for
that turn, in their original order; skipped interjections from the other
speaker contribute no text, as the concrete example shows. -/
theorem merge_turn_text_spec :
    (∀ (S : Str) (l : List Utterance),
      (scanTurn S l).1 =
        ((l.take (l.length - (scanTurn S l).2.length)).filter
          (fun u => decide (u.speaker = S))).map Utterance.text) ∧
    (∀ (u : Utterance) (rest : List Utterance),
      merge_utterances (u :: rest) =
        ⟨u.speaker, joinSpace (u.text :: (scanTurn u.speaker rest).1)⟩ ::
          merge_utterances (scanTurn u.speaker rest).2) ∧
    merge_utterances
        [⟨"A".toList, "I think so".toList⟩, ⟨"B".toList, "mm-hmm".toList⟩,
         ⟨"A".toList, "It was good".toList⟩] =
      [⟨"A".toList, "I think so It was good".toList⟩] := by
  refine ⟨scanTurn_fst_texts, merge_utterances_cons, ?_⟩
  rw [merge_eval ⟨"A".toList, "I think so".toList⟩
    [⟨"B".toList, "mm-hmm".toList⟩, ⟨"A".toList, "It was good".toList⟩]
    ["It was good".toList] (by decide)]
  decide

/-- C1 (counterexample): the spec's own example input produces a merged
text from which the absorbed interjection's text is absent. -/
theorem merge_text_counterexample :
    merge_utterances
        [⟨"A".toList, "I think so".toList⟩, ⟨"B".toList, "mm-hmm".toList⟩,
         ⟨"A".toList, "It was good".toList⟩] ≠
      [⟨"A".toList, "I think so mm-hmm It was good".toList⟩] ∧
    merge_utterances
        [⟨"A".toList, "I think so".toList⟩, ⟨"B".toList, "mm-hmm".toList⟩,
         ⟨"A".toList, "It was good".toList⟩] =
      [⟨"A".toList, "I think so It was good".toList⟩] := by
  rw [merge_eval ⟨"A".toList, "I think so".toList⟩
    [⟨"B".toList, "mm-hmm".toList⟩, ⟨"A".toList, "It was good".toList⟩]
    ["It was good".toList] (by decide)]
  constructor
  · decide
  · decide

/-! ### Trailing interjections -/

/-- A minimal interjection at the very end of the input is never
consumed by a scan for a different speaker. -/
theorem scanTurn_trailing_interjection (w : Utterance)
    (hw : is_minimal_interjection w.text = true) (S : Str)
    (l : List Utterance) (hS : ¬ w.speaker = S) :
    ∃ l2, (scanTurn S (l ++ [w])).2 = l2 ++ [w] := by
  induction l with
  | nil =>
    rw [List.nil_append, scanTurn_interjLast hS hw]
    exact ⟨[], rfl⟩
  | cons u l' ih =>
    simp only [List.cons_append]
    by_cases hs : u.speaker = S
    · rw [scanTurn_same _ hs]
      exact ih
    · by_cases hi : is_minimal_interjection u.text = true
      · cases l' with
        | nil =>
          rw [List.nil_append, scanTurn_interjBreak [] hs hi hS]
          exact ⟨[u], rfl⟩
        | cons v l'2 =>
          simp only [List.cons_append]
          by_cases hv : v.speaker = S
          · rw [scanTurn_skip (l'2 ++ [w]) hs hi hv]
            simpa only [List.cons_append] using ih
          · rw [scanTurn_interjBreak (l'2 ++ [w]) hs hi hv]
            exact ⟨u :: v :: l'2, by simp⟩
      · rw [scanTurn_notInterj (l' ++ [w]) hs hi]
        exact ⟨u :: l', by simp⟩

/-- Fuel-indexed form: a trailing interjection whose speaker is foreign
to the rest of the input ends up as its own final one-utterance turn. -/
theorem merge_trailing_interjection_aux :
    ∀ (n : Nat) (l : List Utterance) (w : Utterance), l.length ≤ n →
      is_minimal_interjection w.text = true →
      (∀ u ∈ l, ¬ u.speaker = w.speaker) →
      (merge_utterances (l ++ [w])).getLast? = some ⟨w.speaker, w.text⟩ := by
  intro n
  induction n with
  | zero =>
    intro l w h hw hl
    have hnil : l = [] := List.length_eq_zero.mp (Nat.le_zero.mp h)
    subst hnil
    rw [List.nil_append, merge_eval w [] [] rfl, joinSpace_singleton]
    rfl
  | succ n ih =>
    intro l w h hw hl
    cases l with
    | nil =>
      rw [List.nil_append, merge_eval w [] [] rfl, joinSpace_singleton]
      rfl
    | cons u l' =>
      have hu : ¬ u.speaker = w.speaker := hl u (by simp)
      simp only [List.cons_append]
      rw [merge_utterances_cons]
      obtain ⟨l2, hl2⟩ := scanTurn_trailing_interjection w hw u.speaker l'
        (fun hc => hu hc.symm)
      rw [hl2]
      have hrem : l2 ++ [w] <:+ l' ++ [w] := by
        rw [← hl2]
        exact scanTurn_snd_suffix u.speaker (l' ++ [w])
      obtain ⟨t, ht⟩ := hrem
      have htl : t ++ l2 = l' := by
        have h1 : (t ++ l2) ++ [w] = l' ++ [w] := by
          rw [List.append_assoc, ht]
        exact List.append_cancel_right h1
      have hlen2 : l2.length ≤ n := by
        have := congrArg List.length htl
        simp only [List.length_append, List.length_cons] at this h
        omega
      have hl2mem : ∀ u' ∈ l2, ¬ u'.speaker = w.speaker := by
        intro u' hu'
        apply hl
        apply List.mem_cons_of_mem
        rw [← htl]
        exact List.mem_append_of_mem_right t hu'
      have hrec := ih l2 w hlen2 hw hl2mem
      cases hm : merge_utterances (l2 ++ [w]) with
      | nil =>
        rw [hm] at hrec
        simp at hrec
      | cons m ms =>
        rw [hm] at hrec
        rw [List.getLast?_cons_cons]
        exact hrec

/-- C6: a minimal interjection at the end of the whole input is never
absorbed by a scan for any other speaker, and when its speaker differs
from every preceding utterance's speaker it forms its own one-utterance
final turn. -/
theorem merge_trailing_interjection (l : List Utterance) (w : Utterance)
    (hw : is_minimal_interjection w.text = true) :
    (∀ S : Str, ¬ S = w.speaker →
      ∃ l2, (scanTurn S (l ++ [w])).2 = l2 ++ [w]) ∧
    ((∀ u ∈ l, ¬ u.speaker = w.speaker) →
      (merge_utterances (l ++ [w])).getLast? = some ⟨w.speaker, w.text⟩) :=
  ⟨fun S hS => scanTurn_trailing_interjection w hw S l (fun hc => hS hc.symm),
   fun hl => merge_trailing_interjection_aux l.length l w le_rfl hw hl⟩

/-- Witness for C6 on a concrete transcript ending in `yeah` from the
other speaker. -/
theorem merge_trailing_interjection_witness :
    is_minimal_interjection (Utterance.text ⟨"B".toList, "yeah".toList⟩) = true ∧
    (∀ u ∈ [(⟨"A".toList, "hello".toList⟩ : Utterance)],
      ¬ u.speaker = "B".toList) ∧
    (merge_utterances
        ([⟨"A".toList, "hello".toList⟩] ++ [⟨"B".toList, "yeah".toList⟩])).getLast? =
      some ⟨"B".toList, "yeah".toList⟩ :=
  ⟨by decide, by decide,
   (merge_trailing_interjection [⟨"A".toList, "hello".toList⟩]
     ⟨"B".toList, "yeah".toList⟩ (by decide)).2 (by decide)⟩

/-! ### The closed interjection set -/

theorem toLower_trailPunct (c : Char) (h : isTrailPunct c = true) :
    Char.toLower c = c := by
  simp only [isTrailPunct, Bool.or_eq_true, decide_eq_true_eq] at h
  rcases h with ((rfl | rfl) | rfl) | rfl <;> decide

theorem trailPunct_not_space (c : Char) (h : isTrailPunct c = true) :
    isPySpace c = false := by
  simp only [isTrailPunct, Bool.or_eq_true, decide_eq_true_eq] at h
  rcases h with ((rfl | rfl) | rfl) | rfl <;> decide

/-- Structural facts about the seventeen interjection tokens. -/
theorem interjection_tokens_shape :
    ∀ t ∈ MINIMAL_INTERJECTIONS, t ≠ [] ∧ lowerStr t = t ∧
      (∀ c, t.head? = some c → isPySpace c = false) ∧
      (∀ c, t.getLast? = some c →
        isPySpace c = false ∧ isTrailPunct c = false) := by
  decide

/-- Dropping an all-satisfying suffix with `rdropWhile`. -/
theorem rdropWhile_append_all (q : Char → Bool) (t p : Str)
    (hp : ∀ c ∈ p, q c = true) :
    List.rdropWhile q (t ++ p) = List.rdropWhile q t := by
  induction p using List.reverseRecOn with
  | nil => simp
  | append_singleton xs x ih =>
    rw [← List.append_assoc]
    rw [List.rdropWhile_concat_pos _ _ _ (hp x (by simp))]
    exact ih (fun c hc => hp c (by simp [hc]))

theorem stripLeft_cons_of_not_space {c : Char} (s : Str)
    (h : isPySpace c = false) : stripLeft (c :: s) = c :: s := by
  simp [stripLeft, List.dropWhile_cons, h]

theorem stripRight_eq_self_of_getLast {s : Str}
    (h : ∀ c, s.getLast? = some c → isPySpace c = false) :
    stripRight s = s := by
  rw [stripRight, stripRightP_eq_rdropWhile]
  rw [List.rdropWhile_eq_self_iff]
  intro hne
  have hsome : s.getLast? = some (s.getLast hne) := List.getLast?_eq_getLast s hne
  simp [h _ hsome]

/-- Any case variant of a token from the closed set, with any trailing
run of `. , ! ?` characters appended, is recognised. -/
theorem interjection_accepts_variants (t : Str)
    (ht : t ∈ MINIMAL_INTERJECTIONS) (v p : Str)
    (hv : lowerStr v = t) (hp : ∀ c ∈ p, isTrailPunct c = true) :
    is_minimal_interjection (v ++ p) = true := by
  obtain ⟨hne, hlow, hhead, hlast⟩ := interjection_tokens_shape t ht
  have hlp : lowerStr p = p := by
    rw [lowerStr]
    rw [List.map_congr_left (fun c hc => toLower_trailPunct c (hp c hc))]
    exact List.map_id p
  have h1 : lowerStr (v ++ p) = t ++ p := by
    rw [lowerStr, List.map_append, ← lowerStr, ← lowerStr, hv, hlp]
  have h2 : stripLeft (t ++ p) = t ++ p := by
    cases t with
    | nil => exact absurd rfl hne
    | cons c t' =>
      rw [List.cons_append]
      exact stripLeft_cons_of_not_space _ (hhead c rfl)
  have h3 : stripRight (t ++ p) = t ++ p := by
    apply stripRight_eq_self_of_getLast
    intro c hc
    rw [List.getLast?_append] at hc
    rcases List.eq_nil_or_concat p with hp0 | ⟨p', x, hpx⟩
    · subst hp0
      simp only [List.getLast?_nil, Option.none_or] at hc
      exact (hlast c hc).1
    · rw [List.concat_eq_append] at hpx
      subst hpx
      rw [List.getLast?_concat] at hc
      have hc2 : some x = some c := hc
      cases hc2
      exact trailPunct_not_space c (hp c (by simp))
  have h4 : stripRightP isTrailPunct (t ++ p) = t := by
    rw [stripRightP_eq_rdropWhile, rdropWhile_append_all isTrailPunct t p hp]
    rw [List.rdropWhile_eq_self_iff]
    intro hne2
    have hsome : t.getLast? = some (t.getLast hne2) := List.getLast?_eq_getLast t hne2
    simp [(hlast _ hsome).2]
  rw [is_minimal_interjection, h1, pyStrip, h2, h3, h4]
  exact decide_eq_true ht

/-- Texts whose cleaned form is outside the set are never classified as
minimal interjections. -/
theorem interjection_rejects_outside (s : Str)
    (h : stripRightP isTrailPunct (pyStrip (lowerStr s)) ∉ MINIMAL_INTERJECTIONS) :
    is_minimal_interjection s = false := by
  simp [is_minimal_interjection, h]

/-- C7: the minimal-interjection test accepts every case variant of a
token of the closed set with trailing `.,!?` appended, rejects every
text whose cleaned form lies outside the set, and a rejected text coming
from the other speaker always breaks the merge scan. -/
theorem interjection_set_exact :
    (∀ t ∈ MINIMAL_INTERJECTIONS, ∀ v p : Str,
      lowerStr v = t → (∀ c ∈ p, isTrailPunct c = true) →
      is_minimal_interjection (v ++ p) = true) ∧
    (∀ s : Str,
      stripRightP isTrailPunct (pyStrip (lowerStr s)) ∉ MINIMAL_INTERJECTIONS →
      is_minimal_interjection s = false) ∧
    (∀ (S : Str) (u : Utterance) (rest : List Utterance),
      ¬ u.speaker = S → is_minimal_interjection u.text = false →
      scanTurn S (u :: rest) = ([], u :: rest)) :=
  ⟨fun t ht v p hv hp => interjection_accepts_variants t ht v p hv hp,
   interjection_rejects_outside,
   fun S u rest hs hi => scanTurn_notInterj rest hs (by simp [hi])⟩

/-- Witness for C7: a concrete case-and-punctuation variant accepted, a
non-member rejected, and the rejected one breaking a concrete scan. -/
theorem interjection_set_witness :
    is_minimal_interjection ("YeAh".toList ++ ".!?".toList) = true ∧
    is_minimal_interjection ("hello".toList) = false ∧
    scanTurn ("A".toList) [⟨"B".toList, "hello".toList⟩] =
      ([], [⟨"B".toList, "hello".toList⟩]) :=
  ⟨interjection_set_exact.1 ("yeah".toList) (by decide) ("YeAh".toList)
      (".!?".toList) (by decide) (by decide),
   interjection_set_exact.2.1 ("hello".toList) (by decide),
   interjection_set_exact.2.2 ("A".toList) ⟨"B".toList, "hello".toList⟩ []
     (by decide) (interjection_set_exact.2.1 ("hello".toList) (by decide))⟩

/-! ### Trailing-comma removal -/

/-- Every list splits as its `rdropWhile` part followed by its trailing
run of satisfying elements. -/
theorem rdropWhile_append_rtakeWhile (p : Char → Bool) (l : Str) :
    l = List.rdropWhile p l ++ List.rtakeWhile p l := by
  have h := List.takeWhile_append_dropWhile (p := p) (l := l.reverse)
  calc l = l.reverse.reverse := (List.reverse_reverse l).symm
    _ = (List.takeWhile p l.reverse ++ List.dropWhile p l.reverse).reverse := by
        rw [h]
    _ = (List.dropWhile p l.reverse).reverse ++
          (List.takeWhile p l.reverse).reverse := List.reverse_append _ _
    _ = List.rdropWhile p l ++ List.rtakeWhile p l := rfl

/-- C3 (amended): `clean_text` first collapses whitespace runs and trims
the ends, and then removes every trailing comma (not just one): the
trailing run it removes is a run of commas, and the result never ends in
a comma. -/
theorem clean_text_removes_all_trailing_commas (s : Str) :
    ∃ k : Nat, pyStrip (collapseWS s) = clean_text s ++ List.replicate k ',' ∧
      ∀ c, (clean_text s).getLast? = some c → ¬ c = ',' := by
  set q : Char → Bool := fun c => decide (c = ',') with hq
  have hsplit := rdropWhile_append_rtakeWhile q (pyStrip (collapseWS s))
  refine ⟨(List.rtakeWhile q (pyStrip (collapseWS s))).length, ?_, ?_⟩
  · have hrep : List.rtakeWhile q (pyStrip (collapseWS s)) =
        List.replicate (List.rtakeWhile q (pyStrip (collapseWS s))).length ',' := by
      rw [List.eq_replicate_length]
      intro b hb
      have := List.mem_rtakeWhile_imp hb
      rw [hq] at this
      exact of_decide_eq_true this
    rw [← hrep]
    calc pyStrip (collapseWS s)
        = List.rdropWhile q (pyStrip (collapseWS s)) ++
            List.rtakeWhile q (pyStrip (collapseWS s)) := hsplit
      _ = clean_text s ++ List.rtakeWhile q (pyStrip (collapseWS s)) := rfl
  · intro c hc hcc
    subst hcc
    have hne : List.rdropWhile q (pyStrip (collapseWS s)) ≠ [] := by
      intro h0
      have h1 : clean_text s = [] := h0
      rw [h1] at hc
      simp at hc
    have hlastnot := List.rdropWhile_last_not (p := q)
      (l := pyStrip (collapseWS s)) hne
    have hsome : (List.rdropWhile q (pyStrip (collapseWS s))).getLast? =
        some ((List.rdropWhile q (pyStrip (collapseWS s))).getLast hne) :=
      List.getLast?_eq_getLast _ hne
    have hc2 : (List.rdropWhile q (pyStrip (collapseWS s))).getLast? =
        some ',' := hc
    rw [hc2] at hsome
    have hval : (List.rdropWhile q (pyStrip (collapseWS s))).getLast hne = ',' :=
      (Option.some.inj hsome).symm
    rw [hval] at hlastnot
    apply hlastnot
    rw [hq]
    exact decide_eq_true rfl

/-- C3 (witness): instantiation at the concrete string `hello,,`, whose
whole trailing comma run is removed. -/
theorem clean_text_trailing_commas_witness :
    ∃ k : Nat, pyStrip (collapseWS ("hello,,".toList)) =
        clean_text ("hello,,".toList) ++ List.replicate k ',' ∧
      ∀ c, (clean_text ("hello,,".toList)).getLast? = some c → ¬ c = ',' :=
  clean_text_removes_all_trailing_commas ("hello,,".toList)

/-- C3 (counterexample): `clean_text "hello,,"` removes both trailing
commas, not just the last one. -/
theorem clean_text_single_comma_counterexample :
    clean_text ("hello,,".toList) ≠ "hello,".toList ∧
    clean_text ("hello,,".toList) = "hello".toList := by
  constructor
  · decide
  · decide

/-! ### Character-level facts about upper-casing -/

theorem char_eq_of_toNat_eq {c d : Char} (h : c.toNat = d.toNat) : c = d :=
  Char.eq_of_val_eq (UInt32.eq_of_toBitVec_eq (BitVec.eq_of_toNat_eq h))

theorem toNat_char_ofNat_lt {n : Nat} (h : n < 55296) :
    (Char.ofNat n).toNat = n := by
  unfold Char.ofNat
  rw [dif_pos (Or.inl h)]
  rfl

theorem isPySpace_iff (c : Char) :
    isPySpace c = true ↔ c.toNat = 32 ∨ c.toNat = 9 ∨ c.toNat = 10 ∨
      c.toNat = 13 ∨ c.toNat = 11 ∨ c.toNat = 12 := by
  simp only [isPySpace, Bool.or_eq_true, decide_eq_true_eq]
  constructor
  · intro h
    rcases h with ((((h | h) | h) | h) | h) | h <;> subst h <;> decide
  · intro h
    rcases h with h | h | h | h | h | h
    · exact Or.inl (Or.inl (Or.inl (Or.inl (Or.inl
        (char_eq_of_toNat_eq (by rw [h]; decide))))))
    · exact Or.inl (Or.inl (Or.inl (Or.inl (Or.inr
        (char_eq_of_toNat_eq (by rw [h]; decide))))))
    · exact Or.inl (Or.inl (Or.inl (Or.inr
        (char_eq_of_toNat_eq (by rw [h]; decide)))))
    · exact Or.inl (Or.inl (Or.inr (char_eq_of_toNat_eq (by rw [h]; decide))))
    · exact Or.inl (Or.inr (char_eq_of_toNat_eq (by rw [h]; decide)))
    · exact Or.inr (char_eq_of_toNat_eq (by rw [h]; decide))

theorem toUpper_eq_of_lower {c : Char}
    (h : c.toNat ≥ 97 ∧ c.toNat ≤ 122) :
    Char.toUpper c = Char.ofNat (c.toNat - 32) := by
  unfold Char.toUpper
  dsimp only
  rw [if_pos h]

theorem toUpper_eq_self {c : Char}
    (h : ¬ (c.toNat ≥ 97 ∧ c.toNat ≤ 122)) : Char.toUpper c = c := by
  unfold Char.toUpper
  dsimp only
  rw [if_neg h]

theorem isPySpace_toUpper (c : Char) :
    isPySpace (Char.toUpper c) = isPySpace c := by
  by_cases h : c.toNat ≥ 97 ∧ c.toNat ≤ 122
  · rw [toUpper_eq_of_lower h]
    have h32 : (Char.ofNat (c.toNat - 32)).toNat = c.toNat - 32 :=
      toNat_char_ofNat_lt (by omega)
    have h1 : isPySpace (Char.ofNat (c.toNat - 32)) = false := by
      rw [Bool.eq_false_iff]
      intro hx
      rw [isPySpace_iff, h32] at hx
      omega
    have h2 : isPySpace c = false := by
      rw [Bool.eq_false_iff]
      intro hx
      rw [isPySpace_iff] at hx
      omega
    rw [h1, h2]
  · rw [toUpper_eq_self h]

theorem toUpper_toUpper (c : Char) :
    Char.toUpper (Char.toUpper c) = Char.toUpper c := by
  by_cases h : c.toNat ≥ 97 ∧ c.toNat ≤ 122
  · rw [toUpper_eq_of_lower h]
    have h32 : (Char.ofNat (c.toNat - 32)).toNat = c.toNat - 32 :=
      toNat_char_ofNat_lt (by omega)
    apply toUpper_eq_self
    rw [h32]
    omega
  · rw [toUpper_eq_self h, toUpper_eq_self h]

/-! ### Structure of collapsed whitespace -/

/-- No two adjacent characters are both whitespace. -/
def noWSRun (a b : Char) : Prop := isPySpace a = false ∨ isPySpace b = false

theorem collapseWS_nil : collapseWS [] = [] := rfl

theorem collapseWS_cons_not {c : Char} (s : Str) (h : isPySpace c = false) :
    collapseWS (c :: s) = c :: collapseWS s := by
  cases s <;> simp [collapseWS, h]

theorem collapseWS_ne_nil (s : Str) (h : s ≠ []) : collapseWS s ≠ [] := by
  induction s with
  | nil => exact absurd rfl h
  | cons c rest ih =>
    by_cases hc : isPySpace c = true
    · cases rest with
      | nil => simp [collapseWS, hc]
      | cons d r2 =>
        by_cases hd : isPySpace d = true
        · simpa [collapseWS, hc, hd] using ih (by simp)
        · simp [collapseWS, hc, hd]
    · rw [collapseWS_cons_not _ (by simp [hc])]
      simp

theorem collapseWS_mem_space (s : Str) :
    ∀ c ∈ collapseWS s, isPySpace c = true → c = ' ' := by
  induction s with
  | nil => simp [collapseWS]
  | cons c rest ih =>
    intro x hx hxs
    by_cases hc : isPySpace c = true
    · cases rest with
      | nil =>
        simp only [collapseWS, hc, if_true, List.mem_singleton] at hx
        exact hx
      | cons d r2 =>
        by_cases hd : isPySpace d = true
        · rw [show collapseWS (c :: d :: r2) = collapseWS (d :: r2) by
            simp [collapseWS, hc, hd]] at hx
          exact ih x hx hxs
        · rw [show collapseWS (c :: d :: r2) = ' ' :: collapseWS (d :: r2) by
            simp [collapseWS, hc, hd]] at hx
          rcases List.mem_cons.mp hx with h1 | h1
          · exact h1
          · exact ih x h1 hxs
    · rw [collapseWS_cons_not _ (by simp [hc])] at hx
      rcases List.mem_cons.mp hx with h1 | h1
      · subst h1
        exact absurd hxs hc
      · exact ih x h1 hxs

theorem collapseWS_head_not_ws {d : Char} (r : Str)
    (hd : isPySpace d = false) :
    (collapseWS (d :: r)).head? = some d := by
  rw [collapseWS_cons_not _ hd]
  rfl

theorem collapseWS_chain (s : Str) :
    List.Chain' noWSRun (collapseWS s) := by
  induction s with
  | nil => simp [collapseWS]
  | cons c rest ih =>
    by_cases hc : isPySpace c = true
    · cases rest with
      | nil => simp [collapseWS, hc]
      | cons d r2 =>
        by_cases hd : isPySpace d = true
        · rw [show collapseWS (c :: d :: r2) = collapseWS (d :: r2) by
            simp [collapseWS, hc, hd]]
          exact ih
        · rw [show collapseWS (c :: d :: r2) = ' ' :: collapseWS (d :: r2) by
            simp [collapseWS, hc, hd]]
          rw [List.chain'_cons']
          refine ⟨?_, ih⟩
          intro y hy
          rw [collapseWS_head_not_ws r2 (by simp [hd])] at hy
          have : y = d := by
            exact Option.some.inj hy.symm
          subst this
          exact Or.inr (by simp [hd])
    · rw [collapseWS_cons_not _ (by simp [hc])]
      rw [List.chain'_cons']
      refine ⟨?_, ih⟩
      intro y hy
      exact Or.inl (by simp [hc])

theorem collapseWS_fixed (s : Str)
    (h1 : ∀ c ∈ s, isPySpace c = true → c = ' ')
    (h2 : List.Chain' noWSRun s) : collapseWS s = s := by
  induction s with
  | nil => rfl
  | cons c rest ih =>
    by_cases hc : isPySpace c = true
    · have hcsp : c = ' ' := h1 c (by simp) hc
      cases rest with
      | nil => simp [collapseWS, hc, hcsp]
      | cons d r2 =>
        have hrel := (List.chain'_cons'.mp h2).1 d (by rfl)
        have hd : isPySpace d = false := by
          rcases hrel with h | h
          · rw [h] at hc
            exact absurd hc (by simp)
          · exact h
        rw [show collapseWS (c :: d :: r2) = ' ' :: collapseWS (d :: r2) by
          simp [collapseWS, hc, hd]]
        rw [ih (fun x hx => h1 x (List.mem_cons_of_mem c hx))
          (List.chain'_cons'.mp h2).2]
        rw [hcsp]
    · rw [collapseWS_cons_not _ (by simp [hc])]
      rw [ih (fun x hx => h1 x (List.mem_cons_of_mem c hx))
        (List.chain'_cons'.mp h2).2]

/-! ### Heads and tails through the cleaning pipeline -/

theorem stripLeft_eq_self {s : Str}
    (h : ∀ c, s.head? = some c → isPySpace c = false) :
    stripLeft s = s := by
  cases s with
  | nil => rfl
  | cons c rest =>
    rw [stripLeft, List.dropWhile_cons, if_neg]
    simp [h c rfl]

theorem getLast?_cons_of_ne_nil {a : Char} {l : Str} (h : l ≠ []) :
    (a :: l).getLast? = l.getLast? := by
  cases l with
  | nil => exact absurd rfl h
  | cons b r => exact List.getLast?_cons_cons

theorem getLast?_mem' {l : Str} {c : Char} (h : l.getLast? = some c) :
    c ∈ l := by
  have hne : l ≠ [] := by
    intro h0
    rw [h0] at h
    simp at h
  have := List.getLast?_eq_getLast l hne
  rw [h] at this
  rw [Option.some.inj this]
  exact List.getLast_mem hne

theorem stripLeft_getLast? {s : Str} {c : Char}
    (h : s.getLast? = some c) (hws : isPySpace c = false) :
    (stripLeft s).getLast? = some c := by
  have hne : stripLeft s ≠ [] := by
    intro h0
    have hall := List.dropWhile_eq_nil_iff.mp h0
    have hmem : c ∈ s := getLast?_mem' h
    rw [hall c hmem] at hws
    simp at hws
  have hsplit := List.takeWhile_append_dropWhile (p := isPySpace) (l := s)
  rw [← hsplit, List.getLast?_append] at h
  obtain ⟨z, hz⟩ : ∃ z, (stripLeft s).getLast? = some z := by
    cases hgl : (stripLeft s).getLast? with
    | none => exact absurd (List.getLast?_eq_none_iff.mp hgl) hne
    | some z => exact ⟨z, rfl⟩
  have hz2 : (List.dropWhile isPySpace s).getLast? = some z := hz
  rw [hz2] at h
  have : some z = some c := h
  rw [hz, this]

theorem stripRight_getLast? {s : Str} {c : Char}
    (h : s.getLast? = some c) (hws : isPySpace c = false) :
    stripRight s = s := by
  apply stripRight_eq_self_of_getLast
  intro d hd
  rw [h] at hd
  rw [← Option.some.inj hd]
  exact hws

theorem rdropWhileComma_eq_self {s : Str} {c : Char}
    (h : s.getLast? = some c) (hc : ¬ c = ',') :
    stripRightP (fun x => x = ',') s = s := by
  rw [stripRightP_eq_rdropWhile, List.rdropWhile_eq_self_iff]
  intro hne
  have := List.getLast?_eq_getLast s hne
  rw [h] at this
  rw [← Option.some.inj this]
  simp [hc]

/-- The last character of the input survives `clean_text` whenever it is
neither whitespace nor a comma. -/
theorem clean_text_getLast? {s : Str} {c : Char}
    (h : s.getLast? = some c) (hws : isPySpace c = false) (hc : ¬ c = ',') :
    (clean_text s).getLast? = some c := by
  have h1 : (collapseWS s).getLast? = some c := by
    clear hc
    induction s with
    | nil => simp at h
    | cons x rest ih =>
      cases rest with
      | nil =>
        have hx : x = c := by
          simpa using h
        subst hx
        rw [collapseWS_cons_not _ (by simpa using hws)]
        rfl
      | cons y r2 =>
        have hrec : (collapseWS (y :: r2)).getLast? = some c :=
          ih (by simpa using h)
        have hnn : collapseWS (y :: r2) ≠ [] := collapseWS_ne_nil _ (by simp)
        by_cases hxs : isPySpace x = true
        · by_cases hys : isPySpace y = true
          · rw [show collapseWS (x :: y :: r2) = collapseWS (y :: r2) by
              simp [collapseWS, hxs, hys]]
            exact hrec
          · rw [show collapseWS (x :: y :: r2) = ' ' :: collapseWS (y :: r2) by
              simp [collapseWS, hxs, hys]]
            rw [getLast?_cons_of_ne_nil hnn]
            exact hrec
        · rw [collapseWS_cons_not _ (by simp [hxs])]
          rw [getLast?_cons_of_ne_nil hnn]
          exact hrec
  have h2 : (stripLeft (collapseWS s)).getLast? = some c :=
    stripLeft_getLast? h1 hws
  have h3 : (pyStrip (collapseWS s)).getLast? = some c := by
    rw [pyStrip, stripRight_getLast? h2 hws]
    exact h2
  rw [clean_text, rdropWhileComma_eq_self h3 hc]
  exact h3

/-- The three collapse-shape properties hold of every `clean_text`
output. -/
theorem clean_text_shape (s : Str) :
    (∀ c ∈ clean_text s, isPySpace c = true → c = ' ') ∧
    List.Chain' noWSRun (clean_text s) ∧
    (∀ c, (clean_text s).head? = some c → isPySpace c = false) := by
  have hinf : clean_text s <:+: collapseWS s := by
    have h1 : clean_text s <+: pyStrip (collapseWS s) := by
      rw [clean_text, stripRightP_eq_rdropWhile]
      exact List.rdropWhile_prefix _ _
    have h2 : pyStrip (collapseWS s) <+: stripLeft (collapseWS s) := by
      rw [pyStrip, stripRight, stripRightP_eq_rdropWhile]
      exact List.rdropWhile_prefix _ _
    have h3 : stripLeft (collapseWS s) <:+ collapseWS s :=
      List.dropWhile_suffix _
    exact ((h1.trans h2).isInfix).trans h3.isInfix
  refine ⟨?_, ?_, ?_⟩
  · intro c hc
    exact collapseWS_mem_space s c (hinf.sublist.mem hc)
  · exact List.Chain'.infix (collapseWS_chain s) hinf
  · intro c hc
    have hne : clean_text s ≠ [] := by
      intro h0
      rw [h0] at hc
      simp at hc
    have hpre : clean_text s <+: pyStrip (collapseWS s) := by
      rw [clean_text, stripRightP_eq_rdropWhile]
      exact List.rdropWhile_prefix _ _
    obtain ⟨r1, hr1⟩ := hpre
    have hh1 : (pyStrip (collapseWS s)).head? = some c := by
      rw [← hr1, List.head?_append_of_ne_nil _ hne, hc]
    have hpre2 : pyStrip (collapseWS s) <+: stripLeft (collapseWS s) := by
      rw [pyStrip, stripRight, stripRightP_eq_rdropWhile]
      exact List.rdropWhile_prefix _ _
    obtain ⟨r2, hr2⟩ := hpre2
    have hne2 : pyStrip (collapseWS s) ≠ [] := by
      intro h0
      rw [h0] at hh1
      simp at hh1
    have hh2 : (stripLeft (collapseWS s)).head? = some c := by
      rw [← hr2, List.head?_append_of_ne_nil _ hne2, hh1]
    cases hdw : stripLeft (collapseWS s) with
    | nil =>
      rw [hdw] at hh2
      simp at hh2
    | cons d r =>
      have hd : isPySpace d = false := by
        have := List.head?_dropWhile_not (p := isPySpace) (l := collapseWS s)
        rw [show List.dropWhile isPySpace (collapseWS s) = d :: r from hdw] at this
        simpa using this
      rw [hdw] at hh2
      have : d = c := by
        simpa using hh2
      rw [← this]
      exact hd

/-! ### Idempotence of the punctuation step -/

theorem clean_text_eq_self (r : Str)
    (h1 : ∀ c ∈ r, isPySpace c = true → c = ' ')
    (h2 : List.Chain' noWSRun r)
    (h3 : ∀ c, r.head? = some c → isPySpace c = false)
    (h4 : ∀ c, r.getLast? = some c → isPySpace c = false ∧ ¬ c = ',') :
    clean_text r = r := by
  rw [clean_text, collapseWS_fixed r h1 h2, pyStrip, stripLeft_eq_self h3]
  cases hr : r.getLast? with
  | none =>
    have : r = [] := List.getLast?_eq_none_iff.mp hr
    subst this
    rfl
  | some c =>
    rw [stripRight_getLast? hr (h4 c hr).1]
    exact rdropWhileComma_eq_self hr (h4 c hr).2

theorem capFirst_cons (c : Char) (rest : Str) :
    capFirst (c :: rest) = Char.toUpper c :: rest := by
  cases rest with
  | nil => simp [capFirst]
  | cons d r =>
    rw [capFirst, if_pos (by simp)]

theorem endsPunct_iff (t : Str) :
    endsPunct t = true ↔
      ∃ c, t.getLast? = some c ∧ (c = '.' ∨ c = '!' ∨ c = '?') := by
  rw [endsPunct]
  cases hg : t.getLast? with
  | none => simp
  | some c =>
    simp only [Bool.or_eq_true, decide_eq_true_eq, Option.some.injEq]
    constructor
    · intro h
      exact ⟨c, rfl, by tauto⟩
    · rintro ⟨d, rfl, hd⟩
      tauto

/-- Unfolding `add_punctuation` into its two decisions. -/
theorem add_punctuation_eq (s : Str) :
    add_punctuation s =
      if clean_text s = [] then []
      else if capFirst (clean_text s) ≠ [] ∧
          ¬ endsPunct (capFirst (clean_text s)) = true
        then capFirst (clean_text s) ++ ['.'] else capFirst (clean_text s) := by
  rw [add_punctuation]
  by_cases h : clean_text s = [] <;> simp [h]

theorem add_punctuation_empty : add_punctuation [] = [] := by
  decide

/-- On text already ending in terminal punctuation, `add_punctuation`
only cleans and capitalises: no period is appended. -/
theorem add_punctuation_no_append (s : Str) (h : endsPunct s = true) :
    add_punctuation s = capFirst (clean_text s) := by
  obtain ⟨c, hlast, hc⟩ := (endsPunct_iff s).mp h
  have hws : isPySpace c = false := by
    rcases hc with rfl | rfl | rfl <;> decide
  have hcomma : ¬ c = ',' := by
    rcases hc with rfl | rfl | rfl <;> decide
  have hcl : (clean_text s).getLast? = some c := clean_text_getLast? hlast hws hcomma
  have hne : clean_text s ≠ [] := by
    intro h0
    rw [h0] at hcl
    simp at hcl
  rw [add_punctuation_eq, if_neg hne]
  obtain ⟨c0, rest, ht⟩ : ∃ c0 rest, clean_text s = c0 :: rest := by
    cases hx : clean_text s with
    | nil => exact absurd hx hne
    | cons a b => exact ⟨a, b, rfl⟩
  have hend2 : endsPunct (capFirst (clean_text s)) = true := by
    rw [ht, capFirst_cons]
    cases rest with
    | nil =>
      have hc0 : c0 = c := by
        rw [ht] at hcl
        simpa using hcl
      subst hc0
      have hup : Char.toUpper c0 = c0 := by
        rcases hc with rfl | rfl | rfl <;> decide
      rw [hup]
      rw [endsPunct_iff]
      exact ⟨c0, rfl, hc⟩
    | cons d r =>
      rw [endsPunct_iff]
      refine ⟨c, ?_, hc⟩
      rw [List.getLast?_cons_cons]
      rw [ht] at hcl
      rw [List.getLast?_cons_cons] at hcl
      exact hcl
  rw [if_neg (by simp [hend2])]

theorem add_punctuation_idem (s : Str) :
    add_punctuation (add_punctuation s) = add_punctuation s := by
  by_cases h0 : clean_text s = []
  · rw [add_punctuation_eq s, if_pos h0, add_punctuation_empty]
  · obtain ⟨c0, rest, ht⟩ : ∃ c0 rest, clean_text s = c0 :: rest := by
      cases hx : clean_text s with
      | nil => exact absurd hx h0
      | cons a b => exact ⟨a, b, rfl⟩
    obtain ⟨hmem, hchain, hhead⟩ := clean_text_shape s
    have hc0 : isPySpace c0 = false := hhead c0 (by rw [ht]; rfl)
    have hupc0 : isPySpace (Char.toUpper c0) = false := by
      rw [isPySpace_toUpper]
      exact hc0
    have hmem2 : ∀ c ∈ Char.toUpper c0 :: rest, isPySpace c = true → c = ' ' := by
      intro c hc hcs
      rcases List.mem_cons.mp hc with hceq | hcr
      · subst hceq
        rw [hupc0] at hcs
        simp at hcs
      · exact hmem c (by rw [ht]; exact List.mem_cons_of_mem c0 hcr) hcs
    have hchain2 : List.Chain' noWSRun (Char.toUpper c0 :: rest) := by
      rw [List.chain'_cons']
      constructor
      · intro y hy
        exact Or.inl hupc0
      · have hc := hchain
        rw [ht] at hc
        exact (List.chain'_cons'.mp hc).2
    have hhead2 : ∀ c, (Char.toUpper c0 :: rest).head? = some c →
        isPySpace c = false := by
      intro c hc
      have hcc : Char.toUpper c0 = c := by
        simpa using hc
      rw [← hcc]
      exact hupc0
    rw [add_punctuation_eq s, if_neg h0, ht, capFirst_cons]
    by_cases happ : (Char.toUpper c0 :: rest) ≠ [] ∧
        ¬ endsPunct (Char.toUpper c0 :: rest) = true
    · rw [if_pos happ]
      have hrcons : (Char.toUpper c0 :: rest) ++ ['.'] =
          Char.toUpper c0 :: (rest ++ ['.']) := by simp
      have hrlast : ((Char.toUpper c0 :: rest) ++ ['.']).getLast? = some '.' :=
        List.getLast?_concat _
      have hclean : clean_text ((Char.toUpper c0 :: rest) ++ ['.']) =
          (Char.toUpper c0 :: rest) ++ ['.'] := by
        apply clean_text_eq_self
        · intro c hc hcs
          rcases List.mem_append.mp hc with hcl | hcr
          · exact hmem2 c hcl hcs
          · have hcd : c = '.' := by simpa using hcr
            subst hcd
            exact absurd hcs (by decide)
        · rw [List.chain'_append]
          refine ⟨hchain2, by simp, ?_⟩
          intro x hx y hy
          have hyd : '.' = y := by simpa using hy
          rw [← hyd]
          exact Or.inr (by decide)
        · intro c hc
          rw [List.head?_append_of_ne_nil _ (by simp)] at hc
          have hcc : Char.toUpper c0 = c := by simpa using hc
          rw [← hcc]
          exact hupc0
        · intro c hc
          rw [hrlast] at hc
          have hcd : '.' = c := Option.some.inj hc
          rw [← hcd]
          exact ⟨by decide, by decide⟩
      rw [add_punctuation_eq, hclean, if_neg (by simp)]
      rw [hrcons, capFirst_cons, toUpper_toUpper]
      have hend2 : endsPunct (Char.toUpper c0 :: (rest ++ ['.'])) = true := by
        rw [endsPunct_iff]
        refine ⟨'.', ?_, by tauto⟩
        rw [← hrcons]
        exact hrlast
      rw [if_neg (by simp [hend2])]
    · rw [if_neg happ]
      have hend : endsPunct (Char.toUpper c0 :: rest) = true := by
        rcases not_and_or.mp happ with hx | hx
        · exact absurd (by simp) hx
        · simpa using hx
      obtain ⟨cl, hcl, hclp⟩ := (endsPunct_iff _).mp hend
      have hclean : clean_text (Char.toUpper c0 :: rest) =
          Char.toUpper c0 :: rest := by
        apply clean_text_eq_self
        · exact hmem2
        · exact hchain2
        · exact hhead2
        · intro c hc
          rw [hcl] at hc
          have hcc : cl = c := Option.some.inj hc
          rw [← hcc]
          constructor
          · rcases hclp with rfl | rfl | rfl <;> decide
          · rcases hclp with rfl | rfl | rfl <;> decide
      rw [add_punctuation_eq, hclean, if_neg (by simp)]
      rw [capFirst_cons, toUpper_toUpper]
      rw [if_neg (by simp [hend])]

/-- C8: the normalise-and-punctuate step is idempotent, maps the empty
string to itself, and never appends a period to text that already ends
in `.`, `!` or `?`. -/
theorem add_punctuation_idempotent (s : Str) :
    add_punctuation (add_punctuation s) = add_punctuation s ∧
    add_punctuation [] = [] ∧
    (endsPunct s = true → add_punctuation s = capFirst (clean_text s)) :=
  ⟨add_punctuation_idem s, add_punctuation_empty, add_punctuation_no_append s⟩

/-- Witness for C8 at a concrete punctuated string. -/
theorem add_punctuation_idempotent_witness :
    endsPunct ("hi.".toList) = true ∧
    add_punctuation (add_punctuation ("hi.".toList)) =
      add_punctuation ("hi.".toList) ∧
    add_punctuation ("hi.".toList) = capFirst (clean_text ("hi.".toList)) :=
  ⟨by decide, (add_punctuation_idempotent ("hi.".toList)).1,
   (add_punctuation_idempotent ("hi.".toList)).2.2 (by decide)⟩

/-! ### Splitting into lines -/

theorem splitLines_ne_nil (s : Str) : splitLines s ≠ [] := by
  cases s with
  | nil => simp [splitLines]
  | cons c rest =>
    by_cases h : c = '\n'
    · simp [splitLines, h]
    · simp only [splitLines, if_neg h]
      cases hx : splitLines rest <;> simp

theorem splitLines_append (x y : Str) :
    splitLines (x ++ '\n' :: y) = splitLines x ++ splitLines y := by
  induction x with
  | nil => simp [splitLines]
  | cons c rest ih =>
    by_cases h : c = '\n'
    · simp only [List.cons_append, splitLines, if_pos h, List.append_eq]
      rw [ih]
    · simp only [List.cons_append, splitLines, if_neg h, List.append_eq]
      rw [ih]
      cases hx : splitLines rest with
      | nil => exact absurd hx (splitLines_ne_nil rest)
      | cons l ls =>
        simp

theorem splitLines_no_newline (u : Str) (h : '\n' ∉ u) :
    splitLines u = [u] := by
  induction u with
  | nil => rfl
  | cons c rest ih =>
    have hc : ¬ c = '\n' := fun hx => h (by simp [hx])
    simp only [splitLines, if_neg hc]
    rw [ih (fun hx => h (List.mem_cons_of_mem c hx))]

theorem splitLines_append_no_newline (a u : Str) (h : '\n' ∉ u) :
    ∃ ls z, splitLines a = ls ++ [z] ∧ splitLines (a ++ u) = ls ++ [z ++ u] := by
  induction a with
  | nil =>
    refine ⟨[], [], rfl, ?_⟩
    simp [splitLines_no_newline u h]
  | cons c rest ih =>
    obtain ⟨ls, z, h1, h2⟩ := ih
    by_cases hc : c = '\n'
    · refine ⟨[] :: ls, z, ?_, ?_⟩
      · simp [splitLines, hc, h1]
      · simp [splitLines, hc, h2]
    · cases ls with
      | nil =>
        simp only [List.nil_append] at h1 h2
        refine ⟨[], c :: z, ?_, ?_⟩
        · simp [splitLines, hc, h1]
        · simp [List.cons_append, splitLines, hc, h2]
      | cons l0 ls' =>
        simp only [List.cons_append] at h1 h2
        refine ⟨(c :: l0) :: ls', z, ?_, ?_⟩
        · simp [splitLines, hc, h1]
        · simp [List.cons_append, splitLines, hc, h2]

theorem splitLines_mem_subset {seg : Str} {x : Str}
    (hseg : seg ∈ splitLines x) : ∀ c ∈ seg, c ∈ x := by
  induction x generalizing seg with
  | nil =>
    intro c hc
    simp only [splitLines, List.mem_singleton] at hseg
    subst hseg
    simp at hc
  | cons d rest ih =>
    intro c hc
    by_cases hd : d = '\n'
    · simp only [splitLines, if_pos hd] at hseg
      rcases List.mem_cons.mp hseg with h1 | h1
      · subst h1
        simp at hc
      · exact List.mem_cons_of_mem d (ih h1 c hc)
    · simp only [splitLines, if_neg hd] at hseg
      cases hx : splitLines rest with
      | nil => exact absurd hx (splitLines_ne_nil rest)
      | cons l ls =>
        rw [hx] at hseg
        rcases List.mem_cons.mp hseg with h1 | h1
        · subst h1
          rcases List.mem_cons.mp hc with h2 | h2
          · exact h2 ▸ List.mem_cons_self d rest
          · exact List.mem_cons_of_mem d (ih (by rw [hx]; simp) c h2)
        · exact List.mem_cons_of_mem d (ih (by rw [hx]; exact List.mem_cons_of_mem l h1) c hc)

theorem intercalate_single (sep x : Str) : List.intercalate sep [x] = x := by
  simp [List.intercalate, List.intersperse]

theorem intercalate_cons2 (sep x y : Str) (ls : List Str) :
    List.intercalate sep (x :: y :: ls) =
      x ++ sep ++ List.intercalate sep (y :: ls) := by
  simp [List.intercalate, List.intersperse]

theorem splitLines_intercalate (t : Str) :
    List.intercalate ['\n'] (splitLines t) = t := by
  induction t with
  | nil => rfl
  | cons c rest ih =>
    by_cases hc : c = '\n'
    · cases hx : splitLines rest with
      | nil => exact absurd hx (splitLines_ne_nil rest)
      | cons l ls =>
        rw [hx] at ih
        simp only [splitLines, if_pos hc, hx]
        rw [intercalate_cons2, ih, hc]
        simp
    · cases hx : splitLines rest with
      | nil => exact absurd hx (splitLines_ne_nil rest)
      | cons l ls =>
        rw [hx] at ih
        simp only [splitLines, if_neg hc, hx]
        cases ls with
        | nil =>
          rw [intercalate_single] at ih
          rw [intercalate_single, ih]
        | cons l2 ls' =>
          rw [intercalate_cons2] at ih
          rw [intercalate_cons2, ← ih]
          simp

/-! ### Stepping the parser -/

theorem flushUtt_nil_parts (cs : Option Str) : flushUtt cs [] = [] := by
  rw [flushUtt, if_neg]
  simp

theorem parseLoop_nil (cs : Option Str) (parts : List Str) :
    parseLoop [] cs parts = flushUtt cs parts := rfl

theorem parseLoop_blank {ln : Str} (rest : List Str) (cs : Option Str)
    (parts : List Str) (h : pyStrip ln = []) :
    parseLoop (ln :: rest) cs parts = parseLoop rest cs parts := by
  simp [parseLoop, h]

theorem parseLoop_label {ln : Str} (rest : List Str) (cs : Option Str)
    (parts : List Str) (h : ¬ pyStrip ln = [])
    (hm : marker.isSuffixOf (pyStrip ln) = true) :
    parseLoop (ln :: rest) cs parts =
      flushUtt cs parts ++
        parseLoop rest (some (replaceMarker (pyStrip ln))) [] := by
  simp [parseLoop, h, hm]

theorem parseLoop_content {ln : Str} (rest : List Str) (cs : Option Str)
    (parts : List Str) (h : ¬ pyStrip ln = [])
    (hm : marker.isSuffixOf (pyStrip ln) = false) (htr : truthy cs = true) :
    parseLoop (ln :: rest) cs parts =
      parseLoop rest cs (parts ++ [pyStrip ln]) := by
  simp [parseLoop, h, hm, htr]

theorem parseLoop_dropLine {ln : Str} (rest : List Str) (cs : Option Str)
    (parts : List Str) (h : ¬ pyStrip ln = [])
    (hm : marker.isSuffixOf (pyStrip ln) = false) (htr : truthy cs = false) :
    parseLoop (ln :: rest) cs parts = parseLoop rest cs parts := by
  simp [parseLoop, h, hm, htr]

/-- The parser only looks at the stripped form of each line. -/
theorem parseLoop_strip_congr :
    ∀ (ls1 ls2 : List Str), ls1.map pyStrip = ls2.map pyStrip →
      ∀ cs parts, parseLoop ls1 cs parts = parseLoop ls2 cs parts := by
  intro ls1
  induction ls1 with
  | nil =>
    intro ls2 h cs parts
    cases ls2 with
    | nil => rfl
    | cons a b => simp at h
  | cons ln rest ih =>
    intro ls2 h cs parts
    cases ls2 with
    | nil => simp at h
    | cons ln2 rest2 =>
      simp only [List.map_cons, List.cons.injEq] at h
      obtain ⟨h1, h2⟩ := h
      by_cases hb : pyStrip ln = []
      · rw [parseLoop_blank rest cs parts hb,
          parseLoop_blank rest2 cs parts (h1 ▸ hb)]
        exact ih rest2 h2 cs parts
      · by_cases hm : marker.isSuffixOf (pyStrip ln) = true
        · rw [parseLoop_label rest cs parts hb hm,
            parseLoop_label rest2 cs parts (h1 ▸ hb) (h1 ▸ hm)]
          rw [ih rest2 h2 (some (replaceMarker (pyStrip ln))) [], h1]
        · have hm' : marker.isSuffixOf (pyStrip ln) = false :=
            Bool.eq_false_iff.mpr hm
          by_cases htr : truthy cs = true
          · rw [parseLoop_content rest cs parts hb hm' htr,
              parseLoop_content rest2 cs parts (h1 ▸ hb) (h1 ▸ hm') htr]
            rw [ih rest2 h2 cs (parts ++ [pyStrip ln]), h1]
          · have htr' : truthy cs = false := by
              simpa using htr
            rw [parseLoop_dropLine rest cs parts hb hm' htr',
              parseLoop_dropLine rest2 cs parts (h1 ▸ hb) (h1 ▸ hm') htr']
            exact ih rest2 h2 cs parts

/-- Lines that strip to nothing at the end of the input are ignored. -/
theorem parseLoop_ws_lines :
    ∀ (ls wsls : List Str), (∀ ln ∈ wsls, pyStrip ln = []) →
      ∀ cs parts, parseLoop (ls ++ wsls) cs parts = parseLoop ls cs parts := by
  intro ls
  induction ls with
  | nil =>
    intro wsls hw cs parts
    rw [List.nil_append, parseLoop_nil]
    induction wsls with
    | nil => rfl
    | cons ln rest ih =>
      rw [parseLoop_blank rest cs parts (hw ln (by simp))]
      exact ih (fun x hx => hw x (List.mem_cons_of_mem ln hx))
  | cons ln rest ih =>
    intro wsls hw cs parts
    rw [List.cons_append]
    by_cases hb : pyStrip ln = []
    · rw [parseLoop_blank _ cs parts hb, parseLoop_blank rest cs parts hb]
      exact ih wsls hw cs parts
    · by_cases hm : marker.isSuffixOf (pyStrip ln) = true
      · rw [parseLoop_label _ cs parts hb hm, parseLoop_label rest cs parts hb hm]
        rw [ih wsls hw _ []]
      · have hm' : marker.isSuffixOf (pyStrip ln) = false :=
          Bool.eq_false_iff.mpr hm
        by_cases htr : truthy cs = true
        · rw [parseLoop_content _ cs parts hb hm' htr,
            parseLoop_content rest cs parts hb hm' htr]
          exact ih wsls hw cs _
        · have htr' : truthy cs = false := by simpa using htr
          rw [parseLoop_dropLine _ cs parts hb hm' htr',
            parseLoop_dropLine rest cs parts hb hm' htr']
          exact ih wsls hw cs parts

/-- Consuming a run of content lines accumulates their stripped nonblank
forms. -/
theorem parseLoop_content_run :
    ∀ (lns rest : List Str) (cs : Option Str) (parts : List Str),
      truthy cs = true →
      (∀ ln ∈ lns, ¬ marker <:+ pyStrip ln) →
      parseLoop (lns ++ rest) cs parts =
        parseLoop rest cs
          (parts ++ (lns.map pyStrip).filter (fun l => l ≠ [])) := by
  intro lns
  induction lns with
  | nil =>
    intro rest cs parts htr hl
    simp
  | cons ln lns' ih =>
    intro rest cs parts htr hl
    rw [List.cons_append]
    by_cases hb : pyStrip ln = []
    · rw [parseLoop_blank _ cs parts hb]
      rw [ih rest cs parts htr (fun x hx => hl x (List.mem_cons_of_mem ln hx))]
      simp [hb]
    · have hm : marker.isSuffixOf (pyStrip ln) = false := by
        rw [Bool.eq_false_iff]
        intro hx
        exact hl ln (by simp) (List.isSuffixOf_iff_suffix.mp hx)
      rw [parseLoop_content _ cs parts hb hm htr]
      rw [ih rest cs (parts ++ [pyStrip ln]) htr
        (fun x hx => hl x (List.mem_cons_of_mem ln hx))]
      simp [hb]

/-! ### Properties of `pyStrip` -/

theorem pyStrip_ne_nil {s : Str} (h : ∃ c ∈ s, isPySpace c = false) :
    pyStrip s ≠ [] := by
  obtain ⟨c, hc, hcs⟩ := h
  have h1 : stripLeft s ≠ [] := by
    intro h0
    have := List.dropWhile_eq_nil_iff.mp h0 c hc
    rw [hcs] at this
    simp at this
  obtain ⟨d, r, hdr⟩ : ∃ d r, stripLeft s = d :: r := by
    cases hx : stripLeft s with
    | nil => exact absurd hx h1
    | cons d r => exact ⟨d, r, rfl⟩
  have hd : isPySpace d = false := by
    have := List.head?_dropWhile_not (p := isPySpace) (l := s)
    rw [show List.dropWhile isPySpace s = d :: r from hdr] at this
    simpa using this
  rw [pyStrip, hdr]
  intro h0
  have := List.rdropWhile_eq_nil_iff.mp h0 d (by simp)
  rw [hd] at this
  simp at this

theorem pyStrip_head_not_ws (x : Str) :
    ∀ c, (pyStrip x).head? = some c → isPySpace c = false := by
  intro c hc
  have hne : pyStrip x ≠ [] := by
    intro h0
    rw [h0] at hc
    simp at hc
  have hpre : pyStrip x <+: stripLeft x := by
    rw [pyStrip, stripRight, stripRightP_eq_rdropWhile]
    exact List.rdropWhile_prefix _ _
  obtain ⟨r, hr⟩ := hpre
  have hh : (stripLeft x).head? = some c := by
    rw [← hr, List.head?_append_of_ne_nil _ hne, hc]
  cases hdw : stripLeft x with
  | nil =>
    rw [hdw] at hh
    simp at hh
  | cons d rr =>
    have hd : isPySpace d = false := by
      have := List.head?_dropWhile_not (p := isPySpace) (l := x)
      rw [show List.dropWhile isPySpace x = d :: rr from hdw] at this
      simpa using this
    rw [hdw] at hh
    have : d = c := by simpa using hh
    rw [← this]
    exact hd

theorem pyStrip_getLast_not_ws (x : Str) :
    ∀ c, (pyStrip x).getLast? = some c → isPySpace c = false := by
  intro c hc
  have hne : pyStrip x ≠ [] := by
    intro h0
    rw [h0] at hc
    simp at hc
  have hne2 : List.rdropWhile isPySpace (stripLeft x) ≠ [] := hne
  have hlast := List.rdropWhile_last_not (p := isPySpace) (l := stripLeft x) hne2
  have hsome := List.getLast?_eq_getLast _ hne2
  have hc2 : (List.rdropWhile isPySpace (stripLeft x)).getLast? = some c := hc
  rw [hc2] at hsome
  rw [← Option.some.inj hsome] at hlast
  simpa using hlast

theorem pyStrip_append_ws (z u : Str) (hu : ∀ c ∈ u, isPySpace c = true) :
    pyStrip (z ++ u) = pyStrip z := by
  rw [pyStrip, pyStrip, stripLeft, stripLeft, List.dropWhile_append]
  by_cases hz : (List.dropWhile isPySpace z).isEmpty = true
  · rw [if_pos hz]
    have h1 : List.dropWhile isPySpace u = [] := by
      rw [List.dropWhile_eq_nil_iff]
      exact hu
    have h2 : List.dropWhile isPySpace z = [] := by
      simpa using hz
    rw [h1, h2]
  · rw [if_neg hz]
    rw [stripRight, stripRightP_eq_rdropWhile, stripRight, stripRightP_eq_rdropWhile]
    exact rdropWhile_append_all isPySpace _ u hu

theorem joinSpace_ne_nil (q : Str) (qs : List Str) (hq : q ≠ []) :
    joinSpace (q :: qs) ≠ [] := by
  cases qs with
  | nil =>
    rw [joinSpace, intercalate_single]
    exact hq
  | cons q2 qs' =>
    rw [joinSpace, intercalate_cons2]
    intro h0
    rw [List.append_assoc] at h0
    have := List.append_eq_nil.mp h0
    exact hq this.1

theorem joinSpace_head? (q : Str) (qs : List Str) (hq : q ≠ []) :
    (joinSpace (q :: qs)).head? = q.head? := by
  cases qs with
  | nil => rw [joinSpace, intercalate_single]
  | cons q2 qs' =>
    rw [joinSpace, intercalate_cons2, List.append_assoc]
    exact List.head?_append_of_ne_nil _ hq

theorem joinSpace_getLast? (q : Str) (qs : List Str)
    (hall : ∀ x ∈ q :: qs, x ≠ []) :
    (joinSpace (q :: qs)).getLast? = ((q :: qs).getLast (by simp)).getLast? := by
  induction qs generalizing q with
  | nil =>
    rw [joinSpace, intercalate_single]
    rfl
  | cons q2 qs' ih =>
    rw [joinSpace, intercalate_cons2, List.append_assoc, List.getLast?_append]
    rw [show [' '].intercalate (q2 :: qs') = joinSpace (q2 :: qs') from rfl]
    have h2 : joinSpace (q2 :: qs') ≠ [] :=
      joinSpace_ne_nil q2 qs' (hall q2 (by simp))
    have h3 : ([' '] ++ joinSpace (q2 :: qs')).getLast? =
        (joinSpace (q2 :: qs')).getLast? := by
      rw [List.getLast?_append]
      cases hx : (joinSpace (q2 :: qs')).getLast? with
      | none => exact absurd (List.getLast?_eq_none_iff.mp hx) h2
      | some z => rfl
    rw [h3]
    have ih2 := ih q2 (fun x hx => hall x (List.mem_cons_of_mem q hx))
    rw [ih2]
    have hlast : (q :: q2 :: qs').getLast (by simp) =
        (q2 :: qs').getLast (by simp) := List.getLast_cons (by simp)
    rw [hlast]
    cases hx : ((q2 :: qs').getLast (by simp)).getLast? with
    | none =>
      have := List.getLast?_eq_none_iff.mp hx
      exact absurd this (hall _ (List.mem_cons_of_mem q (List.getLast_mem _)))
    | some z => rfl

/-! ### Removing the marker from a label line -/

theorem replaceMarker_nil : replaceMarker [] = [] := by
  rw [replaceMarker]

theorem replaceMarker_cons (c : Char) (rest : Str) :
    replaceMarker (c :: rest) =
      if marker.isPrefixOf (c :: rest) then
        replaceMarker ((c :: rest).drop marker.length)
      else c :: replaceMarker rest := by
  rw [replaceMarker]

theorem replaceMarker_eat {s : Str} (h : marker.isPrefixOf s = true) :
    replaceMarker s = replaceMarker (s.drop marker.length) := by
  cases s with
  | nil =>
    rw [List.isPrefixOf_iff_prefix] at h
    have := List.prefix_nil.mp h
    exact absurd this (by decide)
  | cons c rest => rw [replaceMarker_cons, if_pos h]

theorem replaceMarker_keep {c : Char} {rest : Str}
    (h : marker.isPrefixOf (c :: rest) = false) :
    replaceMarker (c :: rest) = c :: replaceMarker rest := by
  rw [replaceMarker_cons, if_neg (by simp [h])]

theorem marker_take_decomp :
    ∀ k, 1 ≤ k → k ≤ 4 → marker ≠ marker.take k ++ marker.take (5 - k) := by
  intro k h1 h4
  have hk : k = 1 ∨ k = 2 ∨ k = 3 ∨ k = 4 := by omega
  rcases hk with rfl | rfl | rfl | rfl <;> decide

/-- The marker is not a prefix of a label line that starts with a
marker-free nonempty speaker. -/
theorem marker_not_prefix_label {a : Str} (hne : a ≠ [])
    (hinf : ¬ marker <:+: a) : marker.isPrefixOf (a ++ marker) = false := by
  rw [Bool.eq_false_iff]
  intro hpre
  rw [List.isPrefixOf_iff_prefix] at hpre
  have hm5 : marker.length = 5 := by decide
  by_cases hlen : 5 ≤ a.length
  · have htake : marker = (a ++ marker).take 5 := by
      obtain ⟨t, ht⟩ := hpre
      rw [← ht, List.take_append_of_le_length (by omega), List.take_of_length_le (by omega)]
    rw [List.take_append_of_le_length hlen] at htake
    exact hinf ((htake ▸ List.take_prefix 5 a).isInfix)
  · have hlen2 : a.length ≤ 4 := by omega
    have htake : marker = (a ++ marker).take 5 := by
      obtain ⟨t, ht⟩ := hpre
      rw [← ht, List.take_append_of_le_length (by omega), List.take_of_length_le (by omega)]
    rw [List.take_append_eq_append_take, List.take_of_length_le (by omega)] at htake
    have ha : a = marker.take a.length := by
      have h1 : (a ++ marker.take (5 - a.length)).take a.length = a := by
        rw [List.take_append_of_le_length le_rfl, List.take_of_length_le le_rfl]
      rw [← htake] at h1
      exact h1.symm
    have hk1 : 1 ≤ a.length := by
      cases a with
      | nil => exact absurd rfl hne
      | cons x xs => simp
    apply marker_take_decomp a.length hk1 hlen2
    rw [← ha]
    exact htake

/-- Removing the marker from a label line recovers the speaker, provided
the speaker itself contains no occurrence of the marker. -/
theorem replaceMarker_label :
    ∀ (s : Str), ¬ marker <:+: s → replaceMarker (s ++ marker) = s := by
  have hbase : replaceMarker marker = [] := by
    rw [replaceMarker_eat (by decide)]
    rw [show marker.drop marker.length = [] from by decide]
    exact replaceMarker_nil
  intro s
  induction s with
  | nil =>
    intro h
    rw [List.nil_append]
    exact hbase
  | cons c s' ih =>
    intro h
    rw [List.cons_append]
    rw [replaceMarker_keep]
    · rw [ih (fun hx => h (List.infix_cons hx))]
    · have := marker_not_prefix_label (a := c :: s') (by simp) h
      rw [List.cons_append] at this
      exact this

/-! ### Emitting one utterance per block -/

theorem flushUtt_emit (S : Str) (parts : List Str) (hS : S ≠ [])
    (hne : parts ≠ [])
    (hparts : ∀ q ∈ parts, q ≠ [] ∧
      (∀ c, q.head? = some c → isPySpace c = false) ∧
      (∀ c, q.getLast? = some c → isPySpace c = false)) :
    flushUtt (some S) parts = [⟨S, joinSpace parts⟩] := by
  cases parts with
  | nil => exact absurd rfl hne
  | cons q qs =>
    have hq := hparts q (by simp)
    have hjoin_ne : joinSpace (q :: qs) ≠ [] := joinSpace_ne_nil q qs hq.1
    have hstrip : pyStrip (joinSpace (q :: qs)) = joinSpace (q :: qs) := by
      rw [pyStrip, stripLeft_eq_self, stripRight_eq_self_of_getLast]
      · intro c hc
        rw [joinSpace_getLast? q qs (fun x hx => (hparts x hx).1)] at hc
        exact (hparts _ (List.getLast_mem (l := q :: qs) (by simp))).2.2 c hc
      · intro c hc
        rw [joinSpace_head? q qs hq.1] at hc
        exact hq.2.1 c hc
    rw [flushUtt, if_pos ⟨by simp [truthy, hS], by simp⟩]
    simp only [hstrip]
    rw [if_pos hjoin_ne]
    rfl

theorem filtered_parts_facts (t : Str) :
    ∀ q ∈ ((splitLines t).map pyStrip).filter (fun l => l ≠ []), q ≠ [] ∧
      (∀ c, q.head? = some c → isPySpace c = false) ∧
      (∀ c, q.getLast? = some c → isPySpace c = false) := by
  intro q hq
  rw [List.mem_filter] at hq
  obtain ⟨hmem, hq2⟩ := hq
  have hqne : q ≠ [] := by simpa using hq2
  obtain ⟨ln, hln, hq3⟩ := List.mem_map.mp hmem
  subst hq3
  exact ⟨hqne, pyStrip_head_not_ws ln, pyStrip_getLast_not_ws ln⟩

theorem splitLines_mem_exists {t : Str} {c : Char} (hc : c ∈ t)
    (hcn : ¬ c = '\n') : ∃ seg ∈ splitLines t, c ∈ seg := by
  induction t with
  | nil => simp at hc
  | cons d rest ih =>
    by_cases hd : d = '\n'
    · have hcr : c ∈ rest := by
        rcases List.mem_cons.mp hc with h1 | h1
        · exact absurd (h1.trans hd) hcn
        · exact h1
      obtain ⟨seg, hseg, hcm⟩ := ih hcr
      exact ⟨seg, by simp [splitLines, hd, hseg], hcm⟩
    · cases hx : splitLines rest with
      | nil => exact absurd hx (splitLines_ne_nil rest)
      | cons l ls =>
        rcases List.mem_cons.mp hc with h1 | h1
        · refine ⟨d :: l, ?_, by simp [h1]⟩
          simp [splitLines, hd, hx]
        · obtain ⟨seg, hseg, hcm⟩ := ih h1
          rw [hx] at hseg
          rcases List.mem_cons.mp hseg with h2 | h2
          · refine ⟨d :: l, ?_, ?_⟩
            · simp [splitLines, hd, hx]
            · subst h2
              exact List.mem_cons_of_mem d hcm
          · refine ⟨seg, ?_, hcm⟩
            simp only [splitLines, if_neg hd, hx]
            exact List.mem_cons_of_mem _ h2

theorem filtered_parts_ne_nil {t : Str} (ht : goodText t) :
    ((splitLines t).map pyStrip).filter (fun l => l ≠ []) ≠ [] := by
  obtain ⟨⟨c, hc, hcs⟩, hlines⟩ := ht
  have hcn : ¬ c = '\n' := by
    intro hx
    rw [hx] at hcs
    simp [isPySpace] at hcs
  obtain ⟨seg, hseg, hcm⟩ := splitLines_mem_exists hc hcn
  have hpne : pyStrip seg ≠ [] := pyStrip_ne_nil ⟨c, hcm, hcs⟩
  apply List.ne_nil_of_mem (a := pyStrip seg)
  rw [List.mem_filter]
  exact ⟨List.mem_map.mpr ⟨seg, hseg, rfl⟩, by simpa using hpne⟩

/-! ### Label lines and the rendered line structure -/

theorem marker_ne_nil : marker ≠ [] := by decide

theorem label_strip (s : Str) (hne : s ≠ [])
    (hhead : ∀ c, s.head? = some c → isPySpace c = false) :
    pyStrip (s ++ marker) = s ++ marker := by
  rw [pyStrip, stripLeft_eq_self, stripRight_eq_self_of_getLast]
  · intro c hc
    rw [List.getLast?_append] at hc
    have hm : marker.getLast? = some 'ー' := by decide
    rw [hm] at hc
    have : some 'ー' = some c := hc
    rw [← Option.some.inj this]
    decide
  · intro c hc
    rw [List.head?_append_of_ne_nil _ hne] at hc
    exact hhead c hc

theorem label_isSuffix (s : Str) :
    marker.isSuffixOf (s ++ marker) = true :=
  List.isSuffixOf_iff_suffix.mpr (List.suffix_append s marker)

theorem label_ne_nil (s : Str) : s ++ marker ≠ [] := by
  intro h
  exact marker_ne_nil (List.append_eq_nil.mp h).2

theorem marker_no_newline : '\n' ∉ marker := by decide

theorem pyStrip_all_ws {s : Str} (h : ∀ c ∈ s, isPySpace c = true) :
    pyStrip s = [] := by
  have h1 : stripLeft s = [] := List.dropWhile_eq_nil_iff.mpr h
  rw [pyStrip, h1]
  rfl

theorem splitLines_render (ps : List (Str × Str))
    (hnl : ∀ p ∈ ps, '\n' ∉ p.1) (hps : ps ≠ []) :
    splitLines (renderBlocks ps) = linesOf ps := by
  induction ps with
  | nil => exact absurd rfl hps
  | cons p ps' ih =>
    have hlab : '\n' ∉ p.1 ++ marker := by
      intro hx
      rcases List.mem_append.mp hx with h1 | h1
      · exact hnl p (by simp) h1
      · exact marker_no_newline h1
    cases ps' with
    | nil =>
      have hr : renderBlocks [p] = (p.1 ++ marker) ++ '\n' :: p.2 := by
        simp [renderBlocks, renderBlock]
      rw [hr, splitLines_append, splitLines_no_newline _ hlab]
      simp [linesOf]
    | cons q ps'' =>
      have hr : renderBlocks (p :: q :: ps'') =
          (p.1 ++ marker) ++ '\n' :: (p.2 ++ '\n' :: renderBlocks (q :: ps'')) := by
        simp [renderBlocks, renderBlock]
      rw [hr, splitLines_append, splitLines_no_newline _ hlab,
        splitLines_append]
      rw [ih (fun x hx => hnl x (List.mem_cons_of_mem p hx)) (by simp)]
      simp [linesOf]

theorem parseLoop_splitLines_ws_append_nonl (a u : Str) (hnlu : '\n' ∉ u)
    (hu : ∀ c ∈ u, isPySpace c = true) (cs : Option Str) (parts : List Str) :
    parseLoop (splitLines (a ++ u)) cs parts =
      parseLoop (splitLines a) cs parts := by
  obtain ⟨ls, z, h1, h2⟩ := splitLines_append_no_newline a u hnlu
  rw [h1, h2]
  apply parseLoop_strip_congr
  simp [pyStrip_append_ws z u hu]

theorem parseLoop_splitLines_ws_append (a u : Str)
    (hu : ∀ c ∈ u, isPySpace c = true) (cs : Option Str) (parts : List Str) :
    parseLoop (splitLines (a ++ u)) cs parts =
      parseLoop (splitLines a) cs parts := by
  by_cases hnl : '\n' ∈ u
  · have hsplit := (List.takeWhile_append_dropWhile
      (p := fun c => !decide (c = '\n')) (l := u)).symm
    obtain ⟨v, hv⟩ : ∃ v,
        u.dropWhile (fun c => !decide (c = '\n')) = '\n' :: v := by
      cases hx : u.dropWhile (fun c => !decide (c = '\n')) with
      | nil =>
        exfalso
        have := List.dropWhile_eq_nil_iff.mp hx '\n' hnl
        simp at this
      | cons d v =>
        have hd := List.head?_dropWhile_not
          (p := fun c => !decide (c = '\n')) (l := u)
        rw [hx] at hd
        simp only [List.head?_cons, Option.mem_def, Option.some.injEq] at hd
        have hdn : d = '\n' := by simpa using hd
        exact ⟨v, by rw [hdn]⟩
    have hnlu1 : '\n' ∉ u.takeWhile (fun c => !decide (c = '\n')) := by
      intro hx
      have := List.mem_takeWhile_imp hx
      simp at this
    have hvu : ∀ c ∈ v, c ∈ u := by
      intro c hc
      have h1 : c ∈ List.dropWhile (fun c => !decide (c = '\n')) u := by
        rw [hv]
        exact List.mem_cons_of_mem _ hc
      exact (List.dropWhile_sublist _).mem h1
    have htu : ∀ c ∈ u.takeWhile (fun x => !decide (x = '\n')), c ∈ u := by
      intro c hc
      exact (List.takeWhile_prefix _).sublist.mem hc
    calc parseLoop (splitLines (a ++ u)) cs parts
        = parseLoop (splitLines ((a ++ u.takeWhile (fun c => !decide (c = '\n')))
            ++ '\n' :: v)) cs parts := by
          conv_lhs => rw [hsplit, hv]
          rw [List.append_assoc]
      _ = parseLoop (splitLines (a ++ u.takeWhile (fun c => !decide (c = '\n')))
            ++ splitLines v) cs parts := by rw [splitLines_append]
      _ = parseLoop (splitLines (a ++ u.takeWhile (fun c => !decide (c = '\n'))))
            cs parts := by
          apply parseLoop_ws_lines
          intro seg hseg
          apply pyStrip_all_ws
          intro c hc
          exact hu c (hvu c (splitLines_mem_subset hseg c hc))
      _ = parseLoop (splitLines a) cs parts :=
          parseLoop_splitLines_ws_append_nonl a _ hnlu1
            (fun c hc => hu c (htu c hc)) cs parts
  · exact parseLoop_splitLines_ws_append_nonl a u hnl hu cs parts

/-! ### Parsing the rendered lines -/

theorem truthy_some {s : Str} (h : s ≠ []) : truthy (some s) = true := by
  simp [truthy]
  exact h

theorem parse_linesOf :
    ∀ (ps : List (Str × Str)), (∀ p ∈ ps, goodSpeaker p.1) →
      (∀ p ∈ ps, goodText p.2) →
      ∀ (cs : Option Str) (parts : List Str),
        parseLoop (linesOf ps) cs parts =
          flushUtt cs parts ++
            ps.map (fun p => (⟨p.1, normText p.2⟩ : Utterance)) := by
  intro ps
  induction ps with
  | nil =>
    intro _ _ cs parts
    simp [linesOf, parseLoop_nil]
  | cons p ps' ih =>
    intro hs ht cs parts
    obtain ⟨hne, hhead, hnl, hinf⟩ := hs p (by simp)
    have hgt := ht p (by simp)
    have hlines : linesOf (p :: ps') =
        (p.1 ++ marker) :: (splitLines p.2 ++ linesOf ps') := by
      simp [linesOf]
    rw [hlines]
    have hstrip : pyStrip (p.1 ++ marker) = p.1 ++ marker :=
      label_strip p.1 hne hhead
    rw [parseLoop_label _ cs parts (by rw [hstrip]; exact label_ne_nil p.1)
      (by rw [hstrip]; exact label_isSuffix p.1)]
    rw [hstrip, replaceMarker_label p.1 hinf]
    rw [parseLoop_content_run (splitLines p.2) (linesOf ps') (some p.1) []
      (truthy_some hne) hgt.2]
    rw [ih (fun x hx => hs x (List.mem_cons_of_mem p hx))
      (fun x hx => ht x (List.mem_cons_of_mem p hx)) (some p.1) _]
    rw [List.nil_append]
    rw [flushUtt_emit p.1 _ hne (filtered_parts_ne_nil hgt)
      (filtered_parts_facts p.2)]
    simp [normText, joinSpace]

/-- Rendering well-formed blocks with the label convention and parsing
back recovers, in order, one utterance per block with the block's
speaker, whose text is the block text with its lines stripped, blank
lines dropped, and the rest joined with single spaces. -/
theorem parse_transcript_renderBlocks (ps : List (Str × Str))
    (hs : ∀ p ∈ ps, goodSpeaker p.1) (ht : ∀ p ∈ ps, goodText p.2) :
    parse_transcript (renderBlocks ps) =
      ps.map (fun p => (⟨p.1, normText p.2⟩ : Utterance)) := by
  cases ps with
  | nil =>
    rw [parse_transcript]
    rw [show pyStrip (renderBlocks []) = [] from rfl]
    rfl
  | cons p ps' =>
    obtain ⟨hne, hhead, hnl, hinf⟩ := hs p (by simp)
    rw [parse_transcript]
    have hhead2 : ∀ c, (renderBlocks (p :: ps')).head? = some c →
        isPySpace c = false := by
      intro c hc
      have hr : (renderBlocks (p :: ps')).head? = p.1.head? := by
        cases ps' with
        | nil =>
          rw [show renderBlocks [p] = renderBlock p from rfl, renderBlock,
            List.append_assoc]
          exact List.head?_append_of_ne_nil _ hne
        | cons q ps'' =>
          rw [show renderBlocks (p :: q :: ps'') =
            renderBlock p ++ '\n' :: renderBlocks (q :: ps'') from rfl,
            renderBlock]
          rw [List.append_assoc, List.append_assoc]
          exact List.head?_append_of_ne_nil _ hne
      rw [hr] at hc
      exact hhead c hc
    have hstripL : stripLeft (renderBlocks (p :: ps')) =
        renderBlocks (p :: ps') := stripLeft_eq_self hhead2
    have hdecomp := rdropWhile_append_rtakeWhile isPySpace
      (renderBlocks (p :: ps'))
    have hws : ∀ c ∈ List.rtakeWhile isPySpace (renderBlocks (p :: ps')),
        isPySpace c = true := fun c hc => List.mem_rtakeWhile_imp hc
    rw [pyStrip, hstripL, stripRight, stripRightP_eq_rdropWhile]
    have hstep : parseLoop
        (splitLines (List.rdropWhile isPySpace (renderBlocks (p :: ps'))))
        none [] =
        parseLoop (splitLines (renderBlocks (p :: ps'))) none [] := by
      conv_rhs => rw [hdecomp]
      exact (parseLoop_splitLines_ws_append _ _ hws none []).symm
    rw [hstep]
    rw [splitLines_render (p :: ps')
      (fun x hx => ((hs x hx).2.2.1)) (by simp)]
    rw [parse_linesOf (p :: ps') hs ht none []]
    rw [flushUtt_nil_parts, List.nil_append]

/-! ### Words and whitespace collapsing -/

theorem wordsOf_nil : wordsOf [] = [] := by
  rw [wordsOf]

theorem wordsOf_cons (c : Char) (rest : Str) :
    wordsOf (c :: rest) =
      if isPySpace c then wordsOf (rest.dropWhile isPySpace)
      else (c :: rest.takeWhile (fun d => !isPySpace d)) ::
        wordsOf (rest.dropWhile (fun d => !isPySpace d)) := by
  rw [wordsOf]

theorem wordsOf_dropWhile (s : Str) :
    wordsOf (List.dropWhile isPySpace s) = wordsOf s := by
  cases s with
  | nil => rfl
  | cons c r =>
    by_cases hc : isPySpace c = true
    · rw [List.dropWhile_cons, if_pos hc, wordsOf_cons, if_pos hc]
    · rw [List.dropWhile_cons, if_neg (by simp [hc])]

theorem wordsOf_word (u v : Str) (hu : u ≠ [])
    (hunw : ∀ c ∈ u, isPySpace c = false)
    (hv : ∀ c, v.head? = some c → isPySpace c = true) :
    wordsOf (u ++ v) = u :: wordsOf v := by
  cases u with
  | nil => exact absurd rfl hu
  | cons c u' =>
    have hc : isPySpace c = false := hunw c (by simp)
    rw [List.cons_append, wordsOf_cons, if_neg (by simp [hc])]
    have htkv : List.takeWhile (fun d => !isPySpace d) v = [] := by
      cases v with
      | nil => rfl
      | cons d v' =>
        rw [List.takeWhile_cons, if_neg (by simp [hv d rfl])]
    have htk : List.takeWhile (fun d => !isPySpace d) (u' ++ v) = u' := by
      have hu' : List.takeWhile (fun d => !isPySpace d) u' = u' :=
        List.takeWhile_eq_self_iff.mpr
          (fun x hx => by simp [hunw x (List.mem_cons_of_mem c hx)])
      rw [List.takeWhile_append, if_pos (by rw [hu'])]
      rw [htkv, List.append_nil]
    have hdr : List.dropWhile (fun d => !isPySpace d) (u' ++ v) = v := by
      have hu2 : List.dropWhile (fun d => !isPySpace d) u' = [] := by
        rw [List.dropWhile_eq_nil_iff]
        intro x hx
        simp [hunw x (List.mem_cons_of_mem c hx)]
      rw [List.dropWhile_append, if_pos (by rw [hu2]; rfl)]
      cases v with
      | nil => rfl
      | cons d v' =>
        rw [List.dropWhile_cons, if_neg (by simp [hv d rfl])]
    rw [htk, hdr]

theorem wordsOf_head_ws {c : Char} (b : Str) (hc : isPySpace c = true) :
    wordsOf (c :: b) = wordsOf b := by
  rw [wordsOf_cons, if_pos hc, wordsOf_dropWhile]

theorem wordsOf_append_ws_aux :
    ∀ (n : Nat) (a : Str), a.length ≤ n → ∀ (c : Char) (b : Str),
      isPySpace c = true →
      wordsOf (a ++ c :: b) = wordsOf a ++ wordsOf b := by
  intro n
  induction n with
  | zero =>
    intro a h c b hc
    have : a = [] := List.length_eq_zero.mp (Nat.le_zero.mp h)
    subst this
    rw [List.nil_append, wordsOf_nil, List.nil_append, wordsOf_head_ws b hc]
  | succ n ih =>
    intro a h c b hc
    cases a with
    | nil =>
      rw [List.nil_append, wordsOf_nil, List.nil_append, wordsOf_head_ws b hc]
    | cons x a' =>
      simp only [List.length_cons] at h
      by_cases hx : isPySpace x = true
      · rw [List.cons_append, wordsOf_head_ws _ hx, wordsOf_head_ws _ hx]
        cases hdw : List.dropWhile isPySpace a' with
        | nil =>
          have ha' : ∀ z ∈ a', isPySpace z = true :=
            List.dropWhile_eq_nil_iff.mp hdw
          have h1 : List.dropWhile isPySpace (a' ++ c :: b) =
              List.dropWhile isPySpace b := by
            rw [List.dropWhile_append, if_pos (by rw [hdw]; rfl)]
            rw [List.dropWhile_cons, if_pos hc]
          rw [show wordsOf (a' ++ c :: b) =
              wordsOf (List.dropWhile isPySpace (a' ++ c :: b)) from
            (wordsOf_dropWhile _).symm, h1, wordsOf_dropWhile]
          rw [show wordsOf a' = wordsOf (List.dropWhile isPySpace a') from
            (wordsOf_dropWhile _).symm, hdw, wordsOf_nil, List.nil_append]
        | cons y r =>
          have h1 : List.dropWhile isPySpace (a' ++ c :: b) =
              (y :: r) ++ c :: b := by
            rw [List.dropWhile_append, if_neg (by rw [hdw]; simp), hdw]
          rw [show wordsOf (a' ++ c :: b) =
              wordsOf (List.dropWhile isPySpace (a' ++ c :: b)) from
            (wordsOf_dropWhile _).symm, h1]
          have hlen : (y :: r).length ≤ n := by
            have := List.Sublist.length_le (List.dropWhile_sublist
              (p := isPySpace) (l := a'))
            rw [hdw] at this
            omega
          rw [ih (y :: r) hlen c b hc]
          rw [show wordsOf a' = wordsOf (List.dropWhile isPySpace a') from
            (wordsOf_dropWhile _).symm, hdw]
      · rw [List.cons_append, wordsOf_cons, if_neg (by simp [hx]),
          wordsOf_cons x a', if_neg (by simp [hx])]
        have htkc : List.takeWhile (fun d => !isPySpace d) (c :: b) = [] := by
          rw [List.takeWhile_cons, if_neg (by simp [hc])]
        have hdrc : List.dropWhile (fun d => !isPySpace d) (c :: b) =
            c :: b := by
          rw [List.dropWhile_cons, if_neg (by simp [hc])]
        by_cases hta : List.takeWhile (fun d => !isPySpace d) a' = a'
        · have hda : List.dropWhile (fun d => !isPySpace d) a' = [] := by
            rw [List.dropWhile_eq_nil_iff]
            intro z hz
            have hz2 : z ∈ List.takeWhile (fun d => !isPySpace d) a' := by
              rw [hta]
              exact hz
            exact List.mem_takeWhile_imp (p := fun d => !isPySpace d) hz2
          have h1 : List.takeWhile (fun d => !isPySpace d) (a' ++ c :: b) =
              a' := by
            rw [List.takeWhile_append, if_pos (by rw [hta]), htkc,
              List.append_nil]
          have h2 : List.dropWhile (fun d => !isPySpace d) (a' ++ c :: b) =
              c :: b := by
            rw [List.dropWhile_append, if_pos (by rw [hda]; rfl), hdrc]
          rw [h1, h2, hta, hda, wordsOf_nil, wordsOf_head_ws b hc]
          rfl
        · obtain ⟨d, w2, hdw⟩ : ∃ d w2,
              List.dropWhile (fun x => !isPySpace x) a' = d :: w2 := by
            cases hz : List.dropWhile (fun x => !isPySpace x) a' with
            | nil =>
              exfalso
              apply hta
              have hsp := List.takeWhile_append_dropWhile
                (p := fun x => !isPySpace x) (l := a')
              rw [hz, List.append_nil] at hsp
              exact hsp
            | cons d w2 => exact ⟨d, w2, rfl⟩
          have hd : isPySpace d = true := by
            have := List.head?_dropWhile_not
              (p := fun x => !isPySpace x) (l := a')
            rw [hdw] at this
            simpa using this
          have h1 : List.takeWhile (fun x => !isPySpace x) (a' ++ c :: b) =
              List.takeWhile (fun x => !isPySpace x) a' := by
            rw [List.takeWhile_append, if_neg]
            intro hlen
            apply hta
            exact List.Sublist.eq_of_length (List.takeWhile_sublist _) hlen
          have h2 : List.dropWhile (fun x => !isPySpace x) (a' ++ c :: b) =
              d :: (w2 ++ c :: b) := by
            rw [List.dropWhile_append, if_neg (by rw [hdw]; simp), hdw]
            rfl
          rw [h1, h2, hdw]
          rw [wordsOf_head_ws _ hd, wordsOf_head_ws _ hd]
          have hlen2 : w2.length ≤ n := by
            have := List.Sublist.length_le (List.dropWhile_sublist
              (p := fun x => !isPySpace x) (l := a'))
            rw [hdw] at this
            simp only [List.length_cons] at this
            omega
          rw [ih w2 hlen2 c b hc]
          simp

theorem wordsOf_append_ws {c : Char} (a b : Str) (hc : isPySpace c = true) :
    wordsOf (a ++ c :: b) = wordsOf a ++ wordsOf b :=
  wordsOf_append_ws_aux a.length a le_rfl c b hc

theorem collapse_ws_head {c : Char} (r : Str) (hc : isPySpace c = true) :
    collapseWS (c :: r) = ' ' :: collapseWS (List.dropWhile isPySpace r) := by
  induction r generalizing c with
  | nil => simp [collapseWS, hc]
  | cons d r2 ih =>
    by_cases hd : isPySpace d = true
    · rw [show collapseWS (c :: d :: r2) = collapseWS (d :: r2) by
        simp [collapseWS, hc, hd]]
      rw [ih hd, List.dropWhile_cons, if_pos hd]
    · rw [show collapseWS (c :: d :: r2) = ' ' :: collapseWS (d :: r2) by
        simp [collapseWS, hc, hd]]
      rw [List.dropWhile_cons, if_neg (by simp [hd])]

theorem collapse_word (u v : Str) (hu : ∀ c ∈ u, isPySpace c = false) :
    collapseWS (u ++ v) = u ++ collapseWS v := by
  induction u with
  | nil => rfl
  | cons c u' ih =>
    rw [List.cons_append, collapseWS_cons_not _ (hu c (by simp)),
      ih (fun x hx => hu x (List.mem_cons_of_mem c hx)), List.cons_append]

theorem rdropWhile_ws_append {a b : Str}
    (h : List.rdropWhile isPySpace b ≠ []) :
    List.rdropWhile isPySpace (a ++ b) = a ++ List.rdropWhile isPySpace b := by
  have hb : ¬ (List.dropWhile isPySpace b.reverse).isEmpty = true := by
    intro hx
    apply h
    rw [List.rdropWhile, List.isEmpty_iff.mp hx]
    rfl
  rw [List.rdropWhile, List.reverse_append, List.dropWhile_append, if_neg hb,
    List.reverse_append, List.reverse_reverse]
  rfl

theorem rdropWhile_all_not {u : Str} (hu : ∀ c ∈ u, isPySpace c = false) :
    List.rdropWhile isPySpace u = u := by
  rw [List.rdropWhile_eq_self_iff]
  intro hne
  simp [hu _ (List.getLast_mem hne)]

theorem pyStrip_collapse_words_aux :
    ∀ (n : Nat) (s : Str), s.length ≤ n →
      pyStrip (collapseWS s) = joinSpace (wordsOf s) := by
  intro n
  induction n with
  | zero =>
    intro s h
    have : s = [] := List.length_eq_zero.mp (Nat.le_zero.mp h)
    subst this
    rw [wordsOf_nil]
    rfl
  | succ n ih =>
    intro s h
    cases s with
    | nil =>
      rw [wordsOf_nil]
      rfl
    | cons c r =>
      simp only [List.length_cons] at h
      by_cases hc : isPySpace c = true
      · rw [collapse_ws_head r hc]
        have h1 : pyStrip (' ' :: collapseWS (List.dropWhile isPySpace r)) =
            pyStrip (collapseWS (List.dropWhile isPySpace r)) := by
          rw [pyStrip, pyStrip, stripLeft, stripLeft, List.dropWhile_cons,
            if_pos (by decide)]
        rw [h1, ih _ (by
          have := List.Sublist.length_le
            (List.dropWhile_sublist (p := isPySpace) (l := r))
          omega)]
        rw [wordsOf_dropWhile, wordsOf_head_ws r hc]
      · have hcf : isPySpace c = false := by simpa using hc
        have hsplit : c :: r =
            (c :: List.takeWhile (fun d => !isPySpace d) r) ++
              List.dropWhile (fun d => !isPySpace d) r := by
          rw [List.cons_append, List.takeWhile_append_dropWhile]
        have hunw : ∀ x ∈ c :: List.takeWhile (fun d => !isPySpace d) r,
            isPySpace x = false := by
          intro x hx
          rcases List.mem_cons.mp hx with h1 | h1
          · rw [h1]
            exact hcf
          · have := List.mem_takeWhile_imp (p := fun d => !isPySpace d) h1
            simpa using this
        have hwords : wordsOf (c :: r) =
            (c :: List.takeWhile (fun d => !isPySpace d) r) ::
              wordsOf (List.dropWhile (fun d => !isPySpace d) r) := by
          rw [wordsOf_cons, if_neg (by simp [hcf])]
        rw [hwords]
        conv_lhs => rw [hsplit]
        rw [collapse_word _ _ hunw]
        have hstripL : ∀ x : Str, pyStrip
            ((c :: List.takeWhile (fun d => !isPySpace d) r) ++ x) =
            List.rdropWhile isPySpace
              ((c :: List.takeWhile (fun d => !isPySpace d) r) ++ x) := by
          intro x
          rw [pyStrip, List.cons_append, stripLeft, List.dropWhile_cons,
            if_neg (by simp [hcf])]
          rfl
        rw [hstripL]
        cases hv : List.dropWhile (fun d => !isPySpace d) r with
        | nil =>
          rw [show collapseWS [] = [] from rfl, List.append_nil,
            rdropWhile_all_not hunw, wordsOf_nil, joinSpace,
            intercalate_single]
        | cons d v' =>
          have hd : isPySpace d = true := by
            have := List.head?_dropWhile_not
              (p := fun x => !isPySpace x) (l := r)
            rw [hv] at this
            simpa using this
          rw [collapse_ws_head v' hd]
          have hwv : wordsOf (d :: v') =
              wordsOf (List.dropWhile isPySpace v') := by
            rw [wordsOf_head_ws v' hd, wordsOf_dropWhile]
          cases hw : List.dropWhile isPySpace v' with
          | nil =>
            rw [show collapseWS ([] : Str) = [] from rfl]
            rw [List.rdropWhile_concat_pos _ _ _ (by decide),
              rdropWhile_all_not hunw]
            rw [hwv, hw, wordsOf_nil, joinSpace, intercalate_single]
          | cons e w =>
            have he : isPySpace e = false := by
              have := List.head?_dropWhile_not
                (p := isPySpace) (l := v')
              rw [hw] at this
              simpa using this
            rw [collapseWS_cons_not _ he]
            have hne1 : List.rdropWhile isPySpace
                (' ' :: e :: collapseWS w) ≠ [] := by
              intro hx
              have := List.rdropWhile_eq_nil_iff.mp hx e (by simp)
              rw [he] at this
              simp at this
            rw [rdropWhile_ws_append hne1]
            have hne2 : List.rdropWhile isPySpace (e :: collapseWS w) ≠ [] := by
              intro hx
              have := List.rdropWhile_eq_nil_iff.mp hx e (by simp)
              rw [he] at this
              simp at this
            rw [show (' ' :: e :: collapseWS w : Str) =
              [' '] ++ (e :: collapseWS w) from rfl]
            rw [rdropWhile_ws_append hne2]
            have hih : List.rdropWhile isPySpace (e :: collapseWS w) =
                joinSpace (wordsOf (e :: w)) := by
              have hlen : (e :: w).length ≤ n := by
                have h1 := List.Sublist.length_le
                  (List.dropWhile_sublist (p := fun d => !isPySpace d) (l := r))
                have h2 := List.Sublist.length_le
                  (List.dropWhile_sublist (p := isPySpace) (l := v'))
                rw [hv] at h1
                rw [hw] at h2
                simp only [List.length_cons] at h1 h2 ⊢
                omega
              have := ih (e :: w) hlen
              rw [collapseWS_cons_not _ he] at this
              rw [← this, pyStrip, stripLeft, List.dropWhile_cons,
                if_neg (by simp [he])]
              rfl
            rw [hih]
            have hwne : wordsOf (e :: w) ≠ [] := by
              rw [wordsOf_cons, if_neg (by simp [he])]
              simp
            rw [hwv, hw]
            cases hwords2 : wordsOf (e :: w) with
            | nil => exact absurd hwords2 hwne
            | cons q qs =>
              conv_rhs => rw [joinSpace, intercalate_cons2]
              simp [joinSpace, List.append_assoc]

theorem pyStrip_collapse_words (s : Str) :
    pyStrip (collapseWS s) = joinSpace (wordsOf s) :=
  pyStrip_collapse_words_aux s.length s le_rfl

theorem wordsOf_all_ws {w : Str} (h : ∀ c ∈ w, isPySpace c = true) :
    wordsOf w = [] := by
  cases w with
  | nil => exact wordsOf_nil
  | cons c r =>
    rw [wordsOf_cons, if_pos (h c (by simp))]
    rw [show List.dropWhile isPySpace r = [] from
      List.dropWhile_eq_nil_iff.mpr (fun x hx => h x (List.mem_cons_of_mem c hx))]
    exact wordsOf_nil

theorem wordsOf_rdropWhile (y : Str) :
    wordsOf (List.rdropWhile isPySpace y) = wordsOf y := by
  conv_rhs => rw [rdropWhile_append_rtakeWhile isPySpace y]
  have hws : ∀ c ∈ List.rtakeWhile isPySpace y, isPySpace c = true :=
    fun c hc => List.mem_rtakeWhile_imp hc
  cases hx : List.rtakeWhile isPySpace y with
  | nil => rw [List.append_nil]
  | cons c w' =>
    rw [wordsOf_append_ws _ _ (hws c (by rw [hx]; simp))]
    rw [wordsOf_all_ws (w := w') (fun x hxm =>
      hws x (by rw [hx]; exact List.mem_cons_of_mem c hxm))]
    rw [List.append_nil]

theorem wordsOf_pyStrip (y : Str) : wordsOf (pyStrip y) = wordsOf y := by
  rw [pyStrip, stripRight, stripRightP_eq_rdropWhile, wordsOf_rdropWhile,
    stripLeft, wordsOf_dropWhile]

theorem wordsOf_intercalate_sep {c : Char} (hc : isPySpace c = true) :
    ∀ (segs : List Str),
      wordsOf (List.intercalate [c] segs) = segs.flatMap wordsOf := by
  intro segs
  induction segs with
  | nil =>
    rw [show List.intercalate [c] ([] : List Str) = [] from rfl, wordsOf_nil]
    rfl
  | cons q segs' ih =>
    cases segs' with
    | nil =>
      rw [intercalate_single]
      simp
    | cons q2 qs =>
      rw [intercalate_cons2, List.append_assoc]
      rw [show ([c] ++ List.intercalate [c] (q2 :: qs) : Str) =
        c :: List.intercalate [c] (q2 :: qs) from rfl]
      rw [wordsOf_append_ws _ _ hc, ih]
      simp

theorem flatMap_filter_ne_nil (f : Str → List Str) (hf : f [] = [])
    (l : List Str) :
    (l.filter (fun x => x ≠ [])).flatMap f = l.flatMap f := by
  induction l with
  | nil => rfl
  | cons x l' ih =>
    by_cases hx : x = []
    · subst hx
      rw [show List.filter (fun x => x ≠ []) ([] :: l') =
        List.filter (fun x => x ≠ []) l' from by simp]
      rw [ih]
      simp [hf]
    · rw [show List.filter (fun y => y ≠ []) (x :: l') =
        x :: List.filter (fun y => y ≠ []) l' from by simp [hx]]
      simp only [List.flatMap_cons, ih]

theorem wordsOf_normText (t : Str) : wordsOf (normText t) = wordsOf t := by
  rw [normText, joinSpace]
  rw [wordsOf_intercalate_sep (by decide)]
  rw [flatMap_filter_ne_nil _ wordsOf_nil]
  rw [List.flatMap_map]
  have hcong : ((splitLines t).flatMap fun ln => wordsOf (pyStrip ln)) =
      (splitLines t).flatMap wordsOf := by
    induction splitLines t with
    | nil => rfl
    | cons seg segs ih =>
      simp only [List.flatMap_cons, wordsOf_pyStrip, ih]
  rw [hcong]
  rw [← wordsOf_intercalate_sep (c := '\n') (by decide)]
  rw [splitLines_intercalate]

theorem cleanWS_normText (t : Str) :
    pyStrip (collapseWS (normText t)) = pyStrip (collapseWS t) := by
  rw [pyStrip_collapse_words, pyStrip_collapse_words, wordsOf_normText]

/-- C4 (amended): for blocks whose speakers are nonempty, start with a
non-whitespace character, contain no line break and no occurrence of
the marker, and whose texts contain a non-whitespace character and no
line stripping to a string that ends in the marker, parsing the rendered
transcript recovers the same ordered sequence of (speaker, text) pairs,
where each recovered text equals the original up to the collapsing of
whitespace (the two have the same whitespace-collapsed trimmed form). -/
theorem parse_render_roundtrip (ps : List (Str × Str))
    (hs : ∀ p ∈ ps, goodSpeaker p.1) (ht : ∀ p ∈ ps, goodText p.2) :
    parse_transcript (renderBlocks ps) =
      ps.map (fun p => (⟨p.1, normText p.2⟩ : Utterance)) ∧
    ∀ p ∈ ps, pyStrip (collapseWS (normText p.2)) =
      pyStrip (collapseWS p.2) :=
  ⟨parse_transcript_renderBlocks ps hs ht, fun p _ => cleanWS_normText p.2⟩

/-- Witness for C4 at a concrete two-block transcript. -/
theorem parse_render_roundtrip_witness :
    (∀ p ∈ ([(("A".toList : Str), ("hi there".toList : Str)),
        (("B".toList : Str), (" ok\n then ".toList : Str))] :
          List (Str × Str)), goodSpeaker p.1) ∧
    (∀ p ∈ ([(("A".toList : Str), ("hi there".toList : Str)),
        (("B".toList : Str), (" ok\n then ".toList : Str))] :
          List (Str × Str)), goodText p.2) ∧
    (parse_transcript (renderBlocks
        [(("A".toList : Str), ("hi there".toList : Str)),
         (("B".toList : Str), (" ok\n then ".toList : Str))]) =
      ([(("A".toList : Str), ("hi there".toList : Str)),
        (("B".toList : Str), (" ok\n then ".toList : Str))] :
          List (Str × Str)).map
        (fun p => (⟨p.1, normText p.2⟩ : Utterance)) ∧
      ∀ p ∈ ([(("A".toList : Str), ("hi there".toList : Str)),
        (("B".toList : Str), (" ok\n then ".toList : Str))] :
          List (Str × Str)),
        pyStrip (collapseWS (normText p.2)) = pyStrip (collapseWS p.2)) :=
  ⟨by decide, by decide,
   parse_render_roundtrip
     [(("A".toList : Str), ("hi there".toList : Str)),
      (("B".toList : Str), (" ok\n then ".toList : Str))]
     (by decide) (by decide)⟩

/-- C4 (counterexample): the block ("A", " ") satisfies the claim's
stated hypotheses (nonempty speaker, nonempty text, no line ending in
the marker), yet parsing its rendering yields no utterance at all: the
whitespace-only text is dropped, so the original pair is not recovered
under any per-text whitespace collapsing. -/
theorem parse_render_counterexample :
    ("A".toList : Str) ≠ [] ∧ (" ".toList : Str) ≠ [] ∧
    (∀ ln ∈ splitLines (" ".toList : Str), ¬ marker <:+ ln) ∧
    parse_transcript (renderBlocks
      [(("A".toList : Str), (" ".toList : Str))]) = [] ∧
    ([(("A".toList : Str), (" ".toList : Str))] :
      List (Str × Str)).length = 1 := by
  refine ⟨by decide, by decide, by decide, ?_, by decide⟩
  rw [parse_transcript]
  have h1 : pyStrip (renderBlocks [(("A".toList : Str), (" ".toList : Str))]) =
      "Aのアバター".toList := by decide
  rw [h1]
  have h2 : splitLines ("Aのアバター".toList) = ["Aのアバター".toList] := by
    decide
  rw [h2]
  rw [parseLoop_label [] none [] (by decide) (by decide)]
  rw [flushUtt_nil_parts, parseLoop_nil, flushUtt_nil_parts]
  rfl
